import Mathlib

/-!
# A verification of the LFU cache (`internal/lfu/lfu.go`)

The cache is a doubly linked list of frequency buckets (`sameFreqContainer`),
each bucket holding a doubly linked list of entries (`cacheData`) ordered by
recency (head = oldest, tail = most recently touched), together with an index
map from keys to entry nodes.  We embed the structure shallowly:

* a bucket's entry list becomes a `List (Entry K V)` whose head is the Go
  list's head (oldest entry) and whose last element is the Go list's tail
  (most recently touched entry);
* the bucket sequence becomes a `List (Bucket K V)` whose head is the Go
  sequence's head (lowest frequency end);
* the entry's `container` back-pointer is represented by the frequency of the
  bucket it points to (bucket frequencies are unique, so the frequency
  identifies the bucket);
* the Go index map becomes the list of cached keys (`index`); the map itself
  is key-unique, which the invariant `Inv` records as `Nodup`;
* a `panic`/nil-dereference is represented by `none` in an `Option` result.
-/

namespace LFU

/-- Go struct `cacheData`: key, value and the back-reference to the containing bucket,
represented by that bucket's frequency. -/
structure Entry (K V : Type) where
  key : K
  value : V
  container : Nat
  deriving DecidableEq, Repr

/-- Go struct `sameFreqContainer`: a frequency together with the recency-ordered entry
list (head = oldest, last = most recently touched). -/
structure Bucket (K V : Type) where
  freq : Nat
  entries : List (Entry K V)
  deriving DecidableEq, Repr

/-- Go struct `cacheImpl`: index (the keys of the Go map), ascending bucket sequence
(head = lowest frequency) and the configured capacity (a Go `int`). -/
structure Cache (K V : Type) where
  index : List K
  sequence : List (Bucket K V)
  capacity : Int
  deriving DecidableEq, Repr

/-- Go constant `DefaultCapacity = 5`. -/
def DefaultCapacity : Int := 5

variable {K V : Type} [DecidableEq K]

/-- The predicate used to locate the entry node of a key inside a bucket's
entry list. -/
def keyMatches (k : K) (e : Entry K V) : Bool := decide (e.key = k)

/-- Constructor `New`: panics (`none`) when more than one capacity argument is given or
when the capacity is negative; otherwise builds the empty cache whose bucket
sequence holds the single permanent frequency-1 bucket. -/
def New (K V : Type) [DecidableEq K] (capacity : List Int) : Option (Cache K V) :=
  if capacity.length > 1 then none
  else
    let cap : Int :=
      match capacity with
      | [c] => c
      | _ => DefaultCapacity
    if cap < 0 then none
    else some { index := [], sequence := [{ freq := 1, entries := [] }], capacity := cap }

/-- Function `touch`, acting on the bucket sequence: locate the bucket holding the entry of
key `k`, detach the entry, move it (with `container` updated) to the bucket
of frequency `freq + 1` — reusing the successor bucket when its frequency is
not greater than `freq + 1`, otherwise inserting a fresh bucket right after —
and drop the old bucket when it became empty and its frequency exceeds 1. -/
def touchSeq (k : K) : List (Bucket K V) → List (Bucket K V)
  | [] => []
  | b :: rest =>
    match b.entries.find? (keyMatches k) with
    | none => b :: touchSeq k rest
    | some e =>
      let newFreq := b.freq + 1
      let remaining := b.entries.eraseP (keyMatches k)
      let keepB : List (Bucket K V) :=
        if remaining.isEmpty ∧ 1 < b.freq then []
        else [{ freq := b.freq, entries := remaining }]
      match rest with
      | [] => keepB ++ [{ freq := newFreq, entries := [{ e with container := newFreq }] }]
      | b2 :: rest2 =>
        if newFreq < b2.freq then
          keepB ++ { freq := newFreq, entries := [{ e with container := newFreq }] } :: b2 :: rest2
        else
          keepB ++ { freq := b2.freq, entries := b2.entries ++ [{ e with container := b2.freq }] } :: rest2

/-- Resolve a key to its entry node by scanning the buckets from the lowest
frequency end (the Go code resolves it through the index map; under the cache
invariant the two agree because each cached key has exactly one entry). -/
def findEntry (k : K) : List (Bucket K V) → Option (Entry K V)
  | [] => none
  | b :: rest =>
    match b.entries.find? (keyMatches k) with
    | some e => some e
    | none => findEntry k rest

/-- The eviction scan of `Put`: walk from the lowest-frequency end, skip
empty buckets, and remove the head (oldest) entry of the first non-empty
bucket, returning the evicted key.  Walking off the end of the sequence is
the nil dereference of the Go code, represented by `none`. -/
def evictFirst : List (Bucket K V) → Option (K × List (Bucket K V))
  | [] => none
  | b :: rest =>
    match b.entries with
    | [] => (evictFirst rest).map fun p => (p.1, b :: p.2)
    | e :: es => some (e.key, { freq := b.freq, entries := es } :: rest)

/-- Assignment `n.data.value = value` after a `touch` inside `Put` on a present key:
overwrite the value stored in the entry node of key `k`. -/
def setValue (k : K) (v : V) : List (Bucket K V) → List (Bucket K V) :=
  List.map fun b =>
    { b with entries := b.entries.map fun e => if e.key = k then { e with value := v } else e }

/-- Method `Size` returns `len(l.index)`. -/
def Cache.Size (c : Cache K V) : Nat := c.index.length

/-- Method `Capacity` returns the configured capacity. -/
def Cache.Capacity (c : Cache K V) : Int := c.capacity

/-- Method `Get`: on a miss return the error (`none`) and leave the cache untouched;
on a hit touch the entry and return its (unchanged) value. -/
def Cache.Get (c : Cache K V) (k : K) : Option V × Cache K V :=
  if k ∈ c.index then
    ((findEntry k c.sequence).map Entry.value, { c with sequence := touchSeq k c.sequence })
  else (none, c)

/-- Statement `l.sequence.head.data.entries.add(cacheData{key, value, l.sequence.head})`:
append a fresh entry — whose bucket back-reference is the head bucket — at
the most recently-touched end of the head bucket's entry list. -/
def insertNew (k : K) (v : V) (b : Bucket K V) : Bucket K V :=
  { b with entries := b.entries ++ [{ key := k, value := v, container := b.freq }] }

/-- Method `Put`: on a present key touch it and overwrite the value.  On an absent
key, evict first when `Size + 1 > Capacity` (deleting the evicted key from
the index), then append the new entry at the most recent end of the head
bucket's entry list and add the key to the index.  `none` is the nil
dereference of the eviction scan on an all-empty sequence. -/
def Cache.Put (c : Cache K V) (k : K) (v : V) : Option (Cache K V) :=
  if k ∈ c.index then
    some { c with sequence := setValue k v (touchSeq k c.sequence) }
  else if (c.Size : Int) + 1 > c.Capacity then
    match evictFirst c.sequence with
    | none => none
    | some (vk, seq1) =>
      match seq1 with
      | [] => none
      | b :: rest =>
        some { index := (c.index.erase vk) ++ [k],
               sequence := insertNew k v b :: rest,
               capacity := c.capacity }
  else
    match c.sequence with
    | [] => none
    | b :: rest =>
      some { index := c.index ++ [k],
             sequence := insertNew k v b :: rest,
             capacity := c.capacity }

/-- Method `GetKeyFrequency`: on a hit, read the frequency through the entry's
bucket back-reference; on a miss return the error (`none`).  No touch. -/
def Cache.GetKeyFrequency (c : Cache K V) (k : K) : Option Nat :=
  if k ∈ c.index then (findEntry k c.sequence).map Entry.container
  else none

/-- Method `All`: traverse the bucket sequence from its tail (highest frequency)
backwards, and each bucket's entry list from its tail (most recently
touched) backwards, yielding the key/value pairs in order. -/
def Cache.All (c : Cache K V) : List (K × V) :=
  (c.sequence.reverse.map fun b => b.entries.reverse.map fun e => (e.key, e.value)).flatten

/-- The traversal of `All`, annotated with the frequency of the bucket each
pair is read from. -/
def allKF (c : Cache K V) : List (K × Nat) :=
  (c.sequence.reverse.map fun b => b.entries.reverse.map fun e => (e.key, b.freq)).flatten

/-- One bucket's inner loop of the `All` iterator with an early-stopping
consumer: yield entries from the most recently touched end until `yield`
asks to stop; the Bool is `true` when the loop was not cut short. -/
def yieldEntries (yield : K → V → Bool) : List (Entry K V) → List (K × V) × Bool
  | [] => ([], true)
  | e :: es =>
    if yield e.key e.value then
      let r := yieldEntries yield es
      ((e.key, e.value) :: r.1, r.2)
    else ([], false)

/-- The outer loop of the `All` iterator with an early-stopping consumer,
walking the given bucket list in order. -/
def yieldBuckets (yield : K → V → Bool) : List (Bucket K V) → List (K × V) × Bool
  | [] => ([], true)
  | b :: bs =>
    let r := yieldEntries yield b.entries.reverse
    if r.2 then
      let r2 := yieldBuckets yield bs
      (r.1 ++ r2.1, r2.2)
    else (r.1, false)

/-- The `All` iterator driven by a consumer that may stop early: the pairs
the consumer accepted.  The function reads the cache and returns no new
cache — the iteration cannot mutate any state. -/
def Cache.AllWhile (c : Cache K V) (yield : K → V → Bool) : List (K × V) :=
  (yieldBuckets yield c.sequence.reverse).1

/-- The keys held in one bucket, oldest first. -/
def bucketKeys (b : Bucket K V) : List K := b.entries.map Entry.key

/-- All keys held in the bucket sequence, lowest frequency bucket first. -/
def seqKeys (seq : List (Bucket K V)) : List K := (seq.map bucketKeys).flatten

/-- The frequency of each bucket, in sequence order. -/
def freqs (seq : List (Bucket K V)) : List Nat := seq.map Bucket.freq

/-- Every entry's bucket back-reference agrees with the bucket that holds it. -/
def BackRef (seq : List (Bucket K V)) : Prop :=
  ∀ b ∈ seq, ∀ e ∈ b.entries, e.container = b.freq

/-- The bucket sequence is non-empty and starts with the permanent
frequency-1 bucket. -/
def HeadOne (seq : List (Bucket K V)) : Prop :=
  ∃ b rest, seq = b :: rest ∧ b.freq = 1

/-- The structural invariant of a cache state. -/
structure Inv (c : Cache K V) : Prop where
  headOne : HeadOne c.sequence
  sorted : List.Chain' (· < ·) (freqs c.sequence)
  backref : BackRef c.sequence
  nodupKeys : (seqKeys c.sequence).Nodup
  indexPerm : c.index.Perm (seqKeys c.sequence)
  capNonneg : 0 ≤ c.capacity
  sizeLe : (c.Size : Int) ≤ c.capacity

/-- The reachable cache states: those produced by `New` and closed under
`Get` and (non-crashing) `Put`. -/
inductive Reach : Cache K V → Prop
  | new (caps : List Int) (c : Cache K V) : New K V caps = some c → Reach c
  | get (c : Cache K V) (k : K) : Reach c → Reach (c.Get k).2
  | put (c c' : Cache K V) (k : K) (v : V) : Reach c → c.Put k v = some c' → Reach c'

/-- One key-`k` access: a `Get`, or a `Put` of a new value (which, for a
present key, always succeeds). -/
inductive Acc (V : Type) where
  | g : Acc V
  | p : V → Acc V

/-- Apply one access to the cache. -/
def applyAcc (k : K) (c : Cache K V) : Acc V → Cache K V
  | Acc.g => (c.Get k).2
  | Acc.p v => (c.Put k v).getD c

/-- Apply a list of key-`k` accesses in order. -/
def applyAccs (k : K) (c : Cache K V) (l : List (Acc V)) : Cache K V :=
  l.foldl (applyAcc k) c

/-- A cache operation, for whole-trace accounting. -/
inductive Op (K V : Type) where
  | get : K → Op K V
  | put : K → V → Op K V

/-- Run one operation and report `(cache, inserted, evicted)` where
`inserted` counts puts of absent keys and `evicted` counts evictions. -/
def stepCount (c : Cache K V) : Op K V → Option (Cache K V × Nat × Nat)
  | Op.get k => some ((c.Get k).2, 0, 0)
  | Op.put k v =>
    match c.Put k v with
    | none => none
    | some c' =>
      if k ∈ c.index then some (c', 0, 0)
      else if (c.Size : Int) + 1 > c.Capacity then some (c', 1, 1)
      else some (c', 1, 0)

/-- Run a list of operations, accumulating the insertion and eviction
counts. -/
def runCount (c : Cache K V) : List (Op K V) → Option (Cache K V × Nat × Nat)
  | [] => some (c, 0, 0)
  | op :: ops =>
    (stepCount c op).bind fun r =>
      (runCount r.1 ops).map fun s => (s.1, r.2.1 + s.2.1, r.2.2 + s.2.2)

/-- Insert the listed keys in order (with the key doubling as its value),
stopping at a crash. -/
def putList (c : Cache Nat Nat) (ks : List Nat) : Option (Cache Nat Nat) :=
  ks.foldlM (fun c k => c.Put k k) c

/-- A single-bucket cache over `Nat` keys and values, used to spell out
small concrete states. -/
def wCache (cap : Int) (idx : List Nat) (es : List (Entry Nat Nat)) : Cache Nat Nat :=
  { index := idx, sequence := [{ freq := 1, entries := es }], capacity := cap }

/-! ## Basic lemmas about key lookup inside entry lists -/

theorem keyMatches_eq_true {k : K} {e : Entry K V} : keyMatches k e = true ↔ e.key = k := by
  simp [keyMatches]

theorem perm_find_eraseP {p : α → Bool} :
    ∀ {l : List α} {e : α}, l.find? p = some e → l.Perm (e :: l.eraseP p) := by
  intro l
  induction l with
  | nil => intro e h; simp [List.find?] at h
  | cons a t ih =>
    intro e h
    by_cases hp : p a
    · rw [List.find?_cons_of_pos _ hp] at h
      cases h
      have he : (a :: t).eraseP p = t := by simp [List.eraseP_cons, hp]
      rw [he]
    · rw [List.find?_cons_of_neg _ hp] at h
      have he : (a :: t).eraseP p = a :: t.eraseP p := by simp [List.eraseP_cons, hp]
      rw [he]
      exact ((ih h).cons a).trans (List.Perm.swap e a _)

theorem mem_keys_iff_find {k : K} {l : List (Entry K V)} :
    k ∈ l.map Entry.key ↔ (l.find? (keyMatches k)).isSome := by
  rw [List.find?_isSome]
  constructor
  · rintro h
    rcases List.mem_map.1 h with ⟨e, he, hk⟩
    exact ⟨e, he, keyMatches_eq_true.2 hk⟩
  · rintro ⟨e, he, hk⟩
    exact List.mem_map.2 ⟨e, he, keyMatches_eq_true.1 hk⟩

theorem seqKeys_nil : seqKeys ([] : List (Bucket K V)) = [] := rfl

theorem seqKeys_cons (b : Bucket K V) (rest : List (Bucket K V)) :
    seqKeys (b :: rest) = bucketKeys b ++ seqKeys rest := rfl

theorem findEntry_key {k : K} :
    ∀ {seq : List (Bucket K V)} {e : Entry K V}, findEntry k seq = some e → e.key = k := by
  intro seq
  induction seq with
  | nil => intro e h; simp [findEntry] at h
  | cons b rest ih =>
    intro e h
    rw [findEntry] at h
    cases hf : b.entries.find? (keyMatches k) with
    | none => rw [hf] at h; exact ih h
    | some e' =>
      rw [hf] at h
      cases h
      exact keyMatches_eq_true.1 (List.find?_some hf)

theorem findEntry_mem {k : K} :
    ∀ {seq : List (Bucket K V)} {e : Entry K V},
      findEntry k seq = some e → ∃ b ∈ seq, e ∈ b.entries := by
  intro seq
  induction seq with
  | nil => intro e h; simp [findEntry] at h
  | cons b rest ih =>
    intro e h
    rw [findEntry] at h
    cases hf : b.entries.find? (keyMatches k) with
    | none =>
      rw [hf] at h
      rcases ih h with ⟨b', hb', he⟩
      exact ⟨b', List.mem_cons_of_mem _ hb', he⟩
    | some e' =>
      rw [hf] at h
      cases h
      exact ⟨b, List.mem_cons_self _ _, List.mem_of_find?_eq_some hf⟩

theorem findEntry_isSome_iff {k : K} :
    ∀ {seq : List (Bucket K V)}, (findEntry k seq).isSome ↔ k ∈ seqKeys seq := by
  intro seq
  induction seq with
  | nil => simp [findEntry, seqKeys_nil]
  | cons b rest ih =>
    rw [findEntry, seqKeys_cons]
    cases hf : b.entries.find? (keyMatches k) with
    | none =>
      have hk : k ∉ bucketKeys b := by
        rw [bucketKeys, mem_keys_iff_find, hf]
        simp
      simp [ih, List.mem_append, hk]
    | some e =>
      have hk : k ∈ bucketKeys b := by
        rw [bucketKeys, mem_keys_iff_find, hf]
        simp
      simp [List.mem_append, hk]

theorem seqKeys_append (l₁ l₂ : List (Bucket K V)) :
    seqKeys (l₁ ++ l₂) = seqKeys l₁ ++ seqKeys l₂ := by
  simp [seqKeys]

theorem freqs_cons (b : Bucket K V) (rest : List (Bucket K V)) :
    freqs (b :: rest) = b.freq :: freqs rest := rfl

theorem freqs_append (l₁ l₂ : List (Bucket K V)) :
    freqs (l₁ ++ l₂) = freqs l₁ ++ freqs l₂ := by
  simp [freqs]

theorem backRef_cons {b : Bucket K V} {rest : List (Bucket K V)} :
    BackRef (b :: rest) ↔ (∀ e ∈ b.entries, e.container = b.freq) ∧ BackRef rest := by
  constructor
  · intro h
    exact ⟨h b (List.mem_cons_self _ _), fun b' hb' => h b' (List.mem_cons_of_mem _ hb')⟩
  · rintro ⟨h1, h2⟩ b' hb'
    rcases List.mem_cons.1 hb' with rfl | hb'
    · exact h1
    · exact h2 b' hb'

theorem backRef_append {l₁ l₂ : List (Bucket K V)} :
    BackRef (l₁ ++ l₂) ↔ BackRef l₁ ∧ BackRef l₂ := by
  simp [BackRef, List.mem_append, or_imp, forall_and]

theorem find?_none_of_not_mem_keys {k : K} {l : List (Entry K V)}
    (h : k ∉ l.map Entry.key) : l.find? (keyMatches k) = none := by
  cases hf : l.find? (keyMatches k) with
  | none => rfl
  | some e =>
    exact absurd (mem_keys_iff_find.2 (by rw [hf]; rfl)) h

theorem find?_append_none {p : α → Bool} {l₁ l₂ : List α} (h : l₁.find? p = none) :
    (l₁ ++ l₂).find? p = l₂.find? p := by
  induction l₁ with
  | nil => rfl
  | cons a t ih =>
    rw [List.find?_cons] at h
    rw [List.cons_append, List.find?_cons]
    cases hp : p a with
    | true =>
      simp only [hp] at h
      exact (Option.some_ne_none a h).elim
    | false =>
      simp only [hp] at h ⊢
      exact ih h

theorem chain_lt_of_chain' {l : List Nat} {lb : Nat} (h : List.Chain' (· < ·) l)
    (hlb : ∀ x ∈ l.head?, lb < x) : List.Chain (· < ·) lb l := by
  cases l with
  | nil => exact List.Chain.nil
  | cons a t => exact List.Chain.cons (hlb a rfl) h

theorem chain'_of_chain_lt {l : List Nat} {lb : Nat} (h : List.Chain (· < ·) lb l) :
    List.Chain' (· < ·) l := by
  cases h with
  | nil => trivial
  | cons h1 h2 => exact h2

theorem findEntry_cons_some {k : K} {b : Bucket K V} {rest : List (Bucket K V)}
    {e : Entry K V} (h : b.entries.find? (keyMatches k) = some e) :
    findEntry k (b :: rest) = some e := by
  rw [findEntry, h]

theorem findEntry_cons_none {k : K} {b : Bucket K V} {rest : List (Bucket K V)}
    (h : b.entries.find? (keyMatches k) = none) :
    findEntry k (b :: rest) = findEntry k rest := by
  rw [findEntry, h]

/-- The main preservation lemma for `touch`: it keeps the frequency chain
strictly increasing (above any lower bound), keeps every back-reference
accurate, permutes no keys, and moves the touched entry to frequency
`container + 1`. -/
theorem touchSeq_spec (k : K) :
    ∀ (seq : List (Bucket K V)) (lb : Nat) (e : Entry K V),
      List.Chain (· < ·) lb (freqs seq) → BackRef seq → (seqKeys seq).Nodup →
      findEntry k seq = some e →
      List.Chain (· < ·) lb (freqs (touchSeq k seq)) ∧
      BackRef (touchSeq k seq) ∧
      (seqKeys (touchSeq k seq)).Perm (seqKeys seq) ∧
      findEntry k (touchSeq k seq) = some { e with container := e.container + 1 } := by
  intro seq
  induction seq with
  | nil =>
    intro lb e _ _ _ hfind
    simp [findEntry] at hfind
  | cons b rest ih =>
    intro lb e hchain hback hnodup hfind
    rw [freqs_cons] at hchain
    have h1 : lb < b.freq := by cases hchain; assumption
    have h2 : List.Chain (· < ·) b.freq (freqs rest) := by cases hchain; assumption
    have hbackb : ∀ e' ∈ b.entries, e'.container = b.freq := (backRef_cons.1 hback).1
    have hbackrest : BackRef rest := (backRef_cons.1 hback).2
    rw [seqKeys_cons, List.nodup_append] at hnodup
    obtain ⟨hnb, hnrest, hdisj⟩ := hnodup
    rw [findEntry] at hfind
    cases hf : b.entries.find? (keyMatches k) with
    | none =>
      rw [hf] at hfind
      obtain ⟨ihchain, ihback, ihperm, ihfind⟩ := ih b.freq e h2 hbackrest hnrest hfind
      refine ⟨?_, ?_, ?_, ?_⟩
      · simp only [touchSeq, hf]
        rw [freqs_cons]
        exact List.Chain.cons h1 ihchain
      · simp only [touchSeq, hf]
        exact backRef_cons.2 ⟨hbackb, ihback⟩
      · simp only [touchSeq, hf]
        rw [seqKeys_cons, seqKeys_cons]
        exact List.Perm.append_left _ ihperm
      · simp only [touchSeq, hf, findEntry]
        exact ihfind
    | some e' =>
      simp only [hf, Option.some.injEq] at hfind
      subst hfind
      have hek : e'.key = k := keyMatches_eq_true.1 (List.find?_some hf)
      have hemem : e' ∈ b.entries := List.mem_of_find?_eq_some hf
      have hcont : e'.container = b.freq := hbackb e' hemem
      have hperm : b.entries.Perm (e' :: b.entries.eraseP (keyMatches k)) :=
        perm_find_eraseP hf
      have hkeysperm :
          (bucketKeys b).Perm (k :: (b.entries.eraseP (keyMatches k)).map Entry.key) := by
        have hm := hperm.map Entry.key
        rw [List.map_cons, hek] at hm
        exact hm
      have hkmem : k ∈ bucketKeys b := hkeysperm.mem_iff.2 (List.mem_cons_self _ _)
      have hnodup2 : (k :: (b.entries.eraseP (keyMatches k)).map Entry.key).Nodup :=
        hkeysperm.nodup_iff.1 hnb
      have hknotin : k ∉ (b.entries.eraseP (keyMatches k)).map Entry.key :=
        (List.nodup_cons.1 hnodup2).1
      have hfindrem : (b.entries.eraseP (keyMatches k)).find? (keyMatches k) = none :=
        find?_none_of_not_mem_keys hknotin
      have hkrest : k ∉ seqKeys rest := fun hc => hdisj hkmem hc
      have hbackrem : ∀ e₂ ∈ b.entries.eraseP (keyMatches k), e₂.container = b.freq :=
        fun e₂ he₂ => hbackb e₂ ((List.eraseP_sublist _).subset he₂)
      rw [hcont]
      have hfinde' : ∀ rest' : List (Bucket K V),
          findEntry k
              ({ freq := b.freq + 1, entries := [{ e' with container := b.freq + 1 }] } :: rest')
            = some { e' with container := b.freq + 1 } :=
        fun rest' => findEntry_cons_some (List.find?_cons_of_pos _ (keyMatches_eq_true.2 hek))
      cases rest with
      | nil =>
        by_cases hdrop : (b.entries.eraseP (keyMatches k)).isEmpty = true ∧ 1 < b.freq
        · have hremnil : b.entries.eraseP (keyMatches k) = [] :=
            List.isEmpty_iff.1 hdrop.1
          rw [hremnil] at hkeysperm
          refine ⟨?_, ?_, ?_, ?_⟩
          · simp only [touchSeq, hf, if_pos hdrop, List.nil_append]
            simp only [freqs, List.map_cons, List.map_nil]
            exact List.Chain.cons (by omega) List.Chain.nil
          · simp only [touchSeq, hf, if_pos hdrop, List.nil_append]
            rw [backRef_cons]
            refine ⟨?_, ?_⟩
            · intro e₂ he₂
              rcases List.mem_singleton.1 he₂ with rfl
              rfl
            · intro b' hb'
              simp at hb'
          · simp only [touchSeq, hf, if_pos hdrop, List.nil_append]
            rw [seqKeys_cons, seqKeys_cons, seqKeys_nil]
            simp only [bucketKeys, List.map_cons, List.map_nil, List.append_nil, List.map_nil]
            simp only [List.map_nil] at hkeysperm
            rw [hek]
            exact hkeysperm.symm
          · simp only [touchSeq, hf, if_pos hdrop, List.nil_append]
            exact hfinde' []
        · refine ⟨?_, ?_, ?_, ?_⟩
          · simp only [touchSeq, hf, if_neg hdrop, List.cons_append, List.nil_append]
            simp only [freqs, List.map_cons, List.map_nil]
            exact List.Chain.cons h1 (List.Chain.cons (by omega) List.Chain.nil)
          · simp only [touchSeq, hf, if_neg hdrop, List.cons_append, List.nil_append]
            rw [backRef_cons, backRef_cons]
            refine ⟨hbackrem, ?_, ?_⟩
            · intro e₂ he₂
              rcases List.mem_singleton.1 he₂ with rfl
              rfl
            · intro b' hb'
              simp at hb'
          · simp only [touchSeq, hf, if_neg hdrop, List.cons_append, List.nil_append]
            rw [seqKeys_cons, seqKeys_cons, seqKeys_cons, seqKeys_nil]
            simp only [bucketKeys, List.map_cons, List.map_nil, List.append_nil]
            rw [hek]
            exact (List.perm_append_singleton _ _).trans hkeysperm.symm
          · simp only [touchSeq, hf, if_neg hdrop, List.cons_append, List.nil_append]
            rw [findEntry_cons_none hfindrem]
            exact hfinde' []
      | cons b2 rest2 =>
        rw [freqs_cons] at h2
        have hb2 : b.freq < b2.freq := by cases h2; assumption
        have h3 : List.Chain (· < ·) b2.freq (freqs rest2) := by cases h2; assumption
        have hbackb2 : ∀ e₂ ∈ b2.entries, e₂.container = b2.freq :=
          (backRef_cons.1 hbackrest).1
        have hbackrest2 : BackRef rest2 := (backRef_cons.1 hbackrest).2
        rw [seqKeys_cons] at hkrest
        have hkb2 : k ∉ bucketKeys b2 := fun hc => hkrest (List.mem_append_left _ hc)
        have hkrest2 : k ∉ seqKeys rest2 := fun hc => hkrest (List.mem_append_right _ hc)
        by_cases hlt : b.freq + 1 < b2.freq
        · by_cases hdrop : (b.entries.eraseP (keyMatches k)).isEmpty = true ∧ 1 < b.freq
          · have hremnil : b.entries.eraseP (keyMatches k) = [] :=
              List.isEmpty_iff.1 hdrop.1
            rw [hremnil] at hkeysperm
            refine ⟨?_, ?_, ?_, ?_⟩
            · simp only [touchSeq, hf, if_pos hlt, if_pos hdrop, List.nil_append]
              simp only [freqs, List.map_cons]
              exact List.Chain.cons (by omega) (List.Chain.cons hlt h3)
            · simp only [touchSeq, hf, if_pos hlt, if_pos hdrop, List.nil_append]
              rw [backRef_cons, backRef_cons]
              refine ⟨?_, hbackb2, hbackrest2⟩
              intro e₂ he₂
              rcases List.mem_singleton.1 he₂ with rfl
              rfl
            · simp only [touchSeq, hf, if_pos hlt, if_pos hdrop, List.nil_append]
              rw [seqKeys_cons, seqKeys_cons]
              simp only [bucketKeys, List.map_cons, List.map_nil]
              simp only [List.map_nil] at hkeysperm
              rw [hek]
              exact List.Perm.append_right _ hkeysperm.symm
            · simp only [touchSeq, hf, if_pos hlt, if_pos hdrop, List.nil_append]
              exact hfinde' _
          · refine ⟨?_, ?_, ?_, ?_⟩
            · simp only [touchSeq, hf, if_pos hlt, if_neg hdrop, List.cons_append,
                List.nil_append]
              simp only [freqs, List.map_cons]
              exact List.Chain.cons h1
                (List.Chain.cons (by omega) (List.Chain.cons hlt h3))
            · simp only [touchSeq, hf, if_pos hlt, if_neg hdrop, List.cons_append,
                List.nil_append]
              rw [backRef_cons, backRef_cons, backRef_cons]
              refine ⟨hbackrem, ?_, hbackb2, hbackrest2⟩
              intro e₂ he₂
              rcases List.mem_singleton.1 he₂ with rfl
              rfl
            · simp only [touchSeq, hf, if_pos hlt, if_neg hdrop, List.cons_append,
                List.nil_append]
              rw [seqKeys_cons, seqKeys_cons, seqKeys_cons, seqKeys_cons]
              simp only [bucketKeys, List.map_cons, List.map_nil]
              rw [hek]
              exact List.perm_middle.trans (hkeysperm.symm.append_right _)
            · simp only [touchSeq, hf, if_pos hlt, if_neg hdrop, List.cons_append,
                List.nil_append]
              rw [findEntry_cons_none hfindrem]
              exact hfinde' _
        · have hfq : b2.freq = b.freq + 1 := by omega
          have hfindb2 : b2.entries.find? (keyMatches k) = none :=
            find?_none_of_not_mem_keys hkb2
          have hfindapp :
              (b2.entries ++ [{ e' with container := b2.freq }]).find? (keyMatches k)
                = some { e' with container := b2.freq } := by
            rw [find?_append_none hfindb2]
            exact List.find?_cons_of_pos _ (keyMatches_eq_true.2 hek)
          by_cases hdrop : (b.entries.eraseP (keyMatches k)).isEmpty = true ∧ 1 < b.freq
          · have hremnil : b.entries.eraseP (keyMatches k) = [] :=
              List.isEmpty_iff.1 hdrop.1
            rw [hremnil] at hkeysperm
            refine ⟨?_, ?_, ?_, ?_⟩
            · simp only [touchSeq, hf, if_neg hlt, if_pos hdrop, List.nil_append]
              simp only [freqs, List.map_cons]
              exact List.Chain.cons (by omega) h3
            · simp only [touchSeq, hf, if_neg hlt, if_pos hdrop, List.nil_append]
              rw [backRef_cons]
              refine ⟨?_, hbackrest2⟩
              intro e₂ he₂
              rcases List.mem_append.1 he₂ with he₂ | he₂
              · exact hbackb2 e₂ he₂
              · rcases List.mem_singleton.1 he₂ with rfl
                rfl
            · simp only [touchSeq, hf, if_neg hlt, if_pos hdrop, List.nil_append]
              rw [seqKeys_cons, seqKeys_cons, seqKeys_cons]
              simp only [bucketKeys, List.map_append, List.map_cons, List.map_nil]
              simp only [List.map_nil] at hkeysperm
              rw [hek]
              exact ((List.perm_append_singleton _ _).append_right _).trans
                (hkeysperm.symm.append_right _)
            · simp only [touchSeq, hf, if_neg hlt, if_pos hdrop, List.nil_append]
              rw [hfq] at hfindapp ⊢
              exact findEntry_cons_some hfindapp
          · refine ⟨?_, ?_, ?_, ?_⟩
            · simp only [touchSeq, hf, if_neg hlt, if_neg hdrop, List.cons_append,
                List.nil_append]
              simp only [freqs, List.map_cons]
              exact List.Chain.cons h1 (List.Chain.cons hb2 h3)
            · simp only [touchSeq, hf, if_neg hlt, if_neg hdrop, List.cons_append,
                List.nil_append]
              rw [backRef_cons, backRef_cons]
              refine ⟨hbackrem, ?_, hbackrest2⟩
              intro e₂ he₂
              rcases List.mem_append.1 he₂ with he₂ | he₂
              · exact hbackb2 e₂ he₂
              · rcases List.mem_singleton.1 he₂ with rfl
                rfl
            · simp only [touchSeq, hf, if_neg hlt, if_neg hdrop, List.cons_append,
                List.nil_append]
              rw [seqKeys_cons, seqKeys_cons, seqKeys_cons]
              simp only [bucketKeys, List.map_append, List.map_cons, List.map_nil]
              rw [hek]
              exact ((((List.perm_append_singleton _ _).append_right _).append_left _).trans
                List.perm_middle).trans (hkeysperm.symm.append_right _)
            · simp only [touchSeq, hf, if_neg hlt, if_neg hdrop, List.cons_append,
                List.nil_append]
              rw [findEntry_cons_none hfindrem]
              rw [hfq] at hfindapp ⊢
              exact findEntry_cons_some hfindapp

/-- Touching never removes the frequency-1 head bucket. -/
theorem touchSeq_headOne {k : K} {seq : List (Bucket K V)} (h : HeadOne seq) :
    HeadOne (touchSeq k seq) := by
  obtain ⟨b, rest, rfl, hb⟩ := h
  cases hf : b.entries.find? (keyMatches k) with
  | none => exact ⟨b, touchSeq k rest, by simp only [touchSeq, hf], hb⟩
  | some e =>
    have hdrop : ¬((b.entries.eraseP (keyMatches k)).isEmpty = true ∧ 1 < b.freq) := by
      rw [hb]
      rintro ⟨-, h2⟩
      exact lt_irrefl 1 h2
    have key : ∃ tail, touchSeq k (b :: rest)
        = { freq := b.freq, entries := b.entries.eraseP (keyMatches k) } :: tail := by
      cases rest with
      | nil =>
        simp only [touchSeq, hf, if_neg hdrop, List.cons_append, List.nil_append]
        exact ⟨_, rfl⟩
      | cons b2 rest2 =>
        by_cases hlt : b.freq + 1 < b2.freq
        · simp only [touchSeq, hf, if_pos hlt, if_neg hdrop, List.cons_append, List.nil_append]
          exact ⟨_, rfl⟩
        · simp only [touchSeq, hf, if_neg hlt, if_neg hdrop, List.cons_append, List.nil_append]
          exact ⟨_, rfl⟩
    obtain ⟨tail, htail⟩ := key
    exact ⟨_, tail, htail, hb⟩

theorem setValue_entry_key {k : K} {v : V} (e : Entry K V) :
    (if e.key = k then { e with value := v } else e).key = e.key := by
  split <;> rfl

theorem setValue_entry_container {k : K} {v : V} (e : Entry K V) :
    (if e.key = k then { e with value := v } else e).container = e.container := by
  split <;> rfl

theorem setValue_entries_keys (k : K) (v : V) (l : List (Entry K V)) :
    (l.map fun e => if e.key = k then { e with value := v } else e).map Entry.key
      = l.map Entry.key := by
  rw [List.map_map]
  exact List.map_congr_left fun e _ => setValue_entry_key e

theorem setValue_freqs (k : K) (v : V) (seq : List (Bucket K V)) :
    freqs (setValue k v seq) = freqs seq := by
  simp [setValue, freqs, List.map_map, Function.comp]

theorem setValue_keys (k : K) (v : V) (seq : List (Bucket K V)) :
    seqKeys (setValue k v seq) = seqKeys seq := by
  induction seq with
  | nil => rfl
  | cons b rest ih =>
    simp only [setValue, List.map_cons] at ih ⊢
    rw [seqKeys_cons, seqKeys_cons]
    simp only [bucketKeys]
    rw [setValue_entries_keys, ih]

theorem setValue_backref {k : K} {v : V} {seq : List (Bucket K V)} (h : BackRef seq) :
    BackRef (setValue k v seq) := by
  intro b' hb' e' he'
  rcases List.mem_map.1 hb' with ⟨b, hb, rfl⟩
  rcases List.mem_map.1 he' with ⟨e, he, rfl⟩
  rw [setValue_entry_container]
  exact h b hb e he

theorem setValue_headOne {k : K} {v : V} {seq : List (Bucket K V)} (h : HeadOne seq) :
    HeadOne (setValue k v seq) := by
  obtain ⟨b, rest, rfl, hb⟩ := h
  refine ⟨{ freq := b.freq,
            entries := b.entries.map fun e => if e.key = k then { e with value := v } else e },
    setValue k v rest, ?_, hb⟩
  simp only [setValue, List.map_cons]

theorem find?_map_setValue (k : K) (v : V) (l : List (Entry K V)) :
    (l.map fun e => if e.key = k then { e with value := v } else e).find? (keyMatches k)
      = (l.find? (keyMatches k)).map fun e => if e.key = k then { e with value := v } else e := by
  induction l with
  | nil => rfl
  | cons a t ih =>
    rw [List.map_cons, List.find?_cons, List.find?_cons]
    have hkm : keyMatches k (if a.key = k then { a with value := v } else a) = keyMatches k a := by
      simp [keyMatches, setValue_entry_key]
    rw [hkm]
    cases hp : keyMatches k a with
    | true => simp
    | false => simpa using ih

theorem setValue_findEntry (k : K) (v : V) (seq : List (Bucket K V)) :
    findEntry k (setValue k v seq)
      = (findEntry k seq).map fun e => if e.key = k then { e with value := v } else e := by
  induction seq with
  | nil => rfl
  | cons b rest ih =>
    have hmap := find?_map_setValue k v b.entries
    cases hf : b.entries.find? (keyMatches k) with
    | none =>
      rw [hf, Option.map_none'] at hmap
      have h1 : findEntry k (setValue k v (b :: rest)) = findEntry k (setValue k v rest) := by
        simp only [setValue, List.map_cons]
        exact findEntry_cons_none hmap
      rw [h1, ih, findEntry_cons_none hf]
    | some e =>
      rw [hf, Option.map_some'] at hmap
      have h1 : findEntry k (setValue k v (b :: rest))
          = some (if e.key = k then { e with value := v } else e) := by
        simp only [setValue, List.map_cons]
        exact findEntry_cons_some hmap
      rw [h1, findEntry_cons_some hf, Option.map_some']

/-- The eviction scan fails exactly on an all-empty bucket sequence. -/
theorem evictFirst_none_iff (seq : List (Bucket K V)) :
    evictFirst seq = none ↔ seqKeys seq = [] := by
  induction seq with
  | nil => simp [evictFirst, seqKeys_nil]
  | cons b rest ih =>
    rw [seqKeys_cons]
    cases hbe : b.entries with
    | nil =>
      have hbk : bucketKeys b = [] := by simp [bucketKeys, hbe]
      simp only [evictFirst, hbe, hbk, List.nil_append, Option.map_eq_none']
      exact ih
    | cons e es =>
      have hbk : bucketKeys b = e.key :: es.map Entry.key := by simp [bucketKeys, hbe]
      simp [evictFirst, hbe, hbk]

/-- What a successful eviction scan produces: the overall key list loses
exactly its first key, the bucket frequencies are untouched, and
back-references stay accurate. -/
theorem evictFirst_some_spec :
    ∀ {seq seq' : List (Bucket K V)} {vk : K},
      evictFirst seq = some (vk, seq') →
      seqKeys seq = vk :: seqKeys seq' ∧ freqs seq' = freqs seq ∧
        (BackRef seq → BackRef seq') := by
  intro seq
  induction seq with
  | nil => intro seq' vk h; simp [evictFirst] at h
  | cons b rest ih =>
    intro seq' vk h
    cases hbe : b.entries with
    | nil =>
      simp only [evictFirst, hbe] at h
      cases hev : evictFirst rest with
      | none => rw [hev] at h; simp at h
      | some p =>
        rw [hev] at h
        simp only [Option.map_some', Option.some.injEq, Prod.mk.injEq] at h
        obtain ⟨rfl, rfl⟩ := h
        obtain ⟨hk, hfr, hbr⟩ := ih (show evictFirst rest = some (p.1, p.2) by rw [hev])
        have hbk : bucketKeys b = [] := by simp [bucketKeys, hbe]
        refine ⟨?_, ?_, ?_⟩
        · rw [seqKeys_cons, seqKeys_cons, hbk, List.nil_append, List.nil_append, hk]
        · rw [freqs_cons, freqs_cons, hfr]
        · intro hb
          rw [backRef_cons] at hb ⊢
          exact ⟨hb.1, hbr hb.2⟩
    | cons e es =>
      simp only [evictFirst, hbe, Option.some.injEq, Prod.mk.injEq] at h
      obtain ⟨rfl, rfl⟩ := h
      refine ⟨?_, ?_, ?_⟩
      · rw [seqKeys_cons, seqKeys_cons]
        simp [bucketKeys, hbe]
      · rw [freqs_cons, freqs_cons]
      · intro hb
        rw [backRef_cons] at hb ⊢
        refine ⟨?_, hb.2⟩
        intro e₂ he₂
        exact hb.1 e₂ (by rw [hbe]; exact List.mem_cons_of_mem _ he₂)

theorem mem_index_iff {c : Cache K V} (h : Inv c) {k : K} :
    k ∈ c.index ↔ k ∈ seqKeys c.sequence :=
  h.indexPerm.mem_iff

theorem inv_chain0 {c : Cache K V} (h : Inv c) :
    List.Chain (· < ·) 0 (freqs c.sequence) := by
  obtain ⟨b, rest, hseq, hb⟩ := h.headOne
  have hs := h.sorted
  rw [hseq, freqs_cons] at hs ⊢
  exact List.Chain.cons (by omega) hs

/-- Touching a cached key: the entry exists, and the touched cache satisfies
the invariant with the entry promoted one frequency up. -/
theorem touch_cache {c : Cache K V} {k : K} (h : Inv c) (hk : k ∈ c.index) :
    ∃ e, findEntry k c.sequence = some e ∧ e.key = k ∧
      Inv { c with sequence := touchSeq k c.sequence } ∧
      findEntry k (touchSeq k c.sequence) = some { e with container := e.container + 1 } ∧
      (seqKeys (touchSeq k c.sequence)).Perm (seqKeys c.sequence) := by
  have hks : k ∈ seqKeys c.sequence := (mem_index_iff h).1 hk
  have hsome : (findEntry k c.sequence).isSome := findEntry_isSome_iff.2 hks
  obtain ⟨e, he⟩ := Option.isSome_iff_exists.1 hsome
  obtain ⟨hchain, hback, hperm, hfind⟩ :=
    touchSeq_spec k c.sequence 0 e (inv_chain0 h) h.backref h.nodupKeys he
  refine ⟨e, he, findEntry_key he, ?_, hfind, hperm⟩
  exact {
    headOne := touchSeq_headOne h.headOne
    sorted := chain'_of_chain_lt hchain
    backref := hback
    nodupKeys := hperm.nodup_iff.2 h.nodupKeys
    indexPerm := h.indexPerm.trans hperm.symm
    capNonneg := h.capNonneg
    sizeLe := h.sizeLe }

/-- Performing `Get` on a cached key returns the stored value, preserves the invariant
and promotes the key's frequency by one. -/
theorem Get_spec {c : Cache K V} {k : K} (h : Inv c) (hk : k ∈ c.index) :
    ∃ e, findEntry k c.sequence = some e ∧
      (c.Get k).1 = some e.value ∧
      (c.Get k).2 = { c with sequence := touchSeq k c.sequence } ∧
      Inv (c.Get k).2 ∧
      (c.Get k).2.index = c.index ∧
      c.GetKeyFrequency k = some e.container ∧
      (c.Get k).2.GetKeyFrequency k = some (e.container + 1) := by
  obtain ⟨e, he, hkey, hinv', hfind', hperm⟩ := touch_cache h hk
  refine ⟨e, he, ?_, ?_, ?_, ?_, ?_, ?_⟩
  · simp [Cache.Get, hk, he]
  · simp [Cache.Get, hk]
  · simpa [Cache.Get, hk] using hinv'
  · simp [Cache.Get, hk]
  · simp [Cache.GetKeyFrequency, hk, he]
  · simp [Cache.Get, Cache.GetKeyFrequency, hk, hfind']

/-- Both `Get` and `GetKeyFrequency` on an absent key fail and change nothing. -/
theorem Get_miss {c : Cache K V} {k : K} (hk : k ∉ c.index) :
    c.Get k = (none, c) ∧ c.GetKeyFrequency k = none := by
  constructor
  · simp [Cache.Get, hk]
  · simp [Cache.GetKeyFrequency, hk]

theorem Get_inv {c : Cache K V} (h : Inv c) (k : K) : Inv (c.Get k).2 := by
  by_cases hk : k ∈ c.index
  · obtain ⟨e, -, -, -, hinv, -⟩ := Get_spec h hk
    exact hinv
  · rw [(Get_miss hk).1]
    exact h

theorem setValue_inv {c : Cache K V} (k : K) (v : V) (h : Inv c) :
    Inv { c with sequence := setValue k v c.sequence } where
  headOne := setValue_headOne h.headOne
  sorted := by rw [show freqs (setValue k v c.sequence) = freqs c.sequence from
    setValue_freqs k v c.sequence]; exact h.sorted
  backref := setValue_backref h.backref
  nodupKeys := by rw [setValue_keys]; exact h.nodupKeys
  indexPerm := by rw [setValue_keys]; exact h.indexPerm
  capNonneg := h.capNonneg
  sizeLe := h.sizeLe

/-- Performing `Put` on a cached key: touch (promoting the frequency by one), overwrite
the value, change nothing else. -/
theorem Put_existing {c : Cache K V} {k : K} (v : V) (h : Inv c) (hk : k ∈ c.index) :
    ∃ c', c.Put k v = some c' ∧ Inv c' ∧ c'.index = c.index ∧ c'.capacity = c.capacity ∧
      (seqKeys c'.sequence).Perm (seqKeys c.sequence) ∧
      ∃ e, findEntry k c.sequence = some e ∧
        findEntry k c'.sequence = some { key := e.key, value := v, container := e.container + 1 } := by
  obtain ⟨e, he, hkey, hinv', hfind', hperm⟩ := touch_cache h hk
  refine ⟨{ c with sequence := setValue k v (touchSeq k c.sequence) }, ?_, ?_, rfl, rfl, ?_, e, he, ?_⟩
  · simp [Cache.Put, hk]
  · exact setValue_inv k v hinv'
  · rw [setValue_keys]
    exact hperm
  · rw [setValue_findEntry, hfind', Option.map_some']
    have hkk : ({ e with container := e.container + 1 } : Entry K V).key = k := hkey
    rw [if_pos hkk]

theorem insertNew_freqs (k : K) (v : V) (b : Bucket K V) (rest : List (Bucket K V)) :
    freqs (insertNew k v b :: rest) = freqs (b :: rest) := rfl

/-- Appending a fresh key at the recent end of the head bucket preserves the
structural facts and makes the key findable with the head bucket's
frequency as back-reference. -/
theorem insertNew_spec {b : Bucket K V} {rest : List (Bucket K V)} (k : K) (v : V)
    (hback : BackRef (b :: rest))
    (hnodup : (seqKeys (b :: rest)).Nodup)
    (hknot : k ∉ seqKeys (b :: rest)) :
    BackRef (insertNew k v b :: rest) ∧
    (seqKeys (insertNew k v b :: rest)).Perm (k :: seqKeys (b :: rest)) ∧
    (seqKeys (insertNew k v b :: rest)).Nodup ∧
    findEntry k (insertNew k v b :: rest) = some { key := k, value := v, container := b.freq } := by
  have hkb : k ∉ bucketKeys b := fun hc => hknot (by rw [seqKeys_cons]; exact List.mem_append_left _ hc)
  have hperm : (seqKeys (insertNew k v b :: rest)).Perm (k :: seqKeys (b :: rest)) := by
    rw [seqKeys_cons, seqKeys_cons]
    have h1 : bucketKeys (insertNew k v b) = bucketKeys b ++ [k] := by
      simp [insertNew, bucketKeys]
    rw [h1]
    exact (List.perm_append_singleton _ _).append_right _
  refine ⟨?_, hperm, ?_, ?_⟩
  · rw [backRef_cons] at hback ⊢
    refine ⟨?_, hback.2⟩
    intro e he
    rcases List.mem_append.1 he with he | he
    · exact hback.1 e he
    · rcases List.mem_singleton.1 he with rfl
      rfl
  · exact hperm.nodup_iff.2 (List.nodup_cons.2 ⟨hknot, hnodup⟩)
  · refine findEntry_cons_some ?_
    show (b.entries ++ [({ key := k, value := v, container := b.freq } : Entry K V)]).find?
      (keyMatches k) = _
    rw [find?_append_none (find?_none_of_not_mem_keys hkb)]
    exact List.find?_cons_of_pos _ (keyMatches_eq_true.2 rfl)

/-- Performing `Put` of a fresh key with room to spare: no eviction, size grows by
one, the key lands in the frequency-1 bucket at the recent end. -/
theorem Put_fresh_notfull {c : Cache K V} {k : K} (v : V) (h : Inv c) (hk : k ∉ c.index)
    (hroom : ¬((c.Size : Int) + 1 > c.Capacity)) :
    ∃ c', c.Put k v = some c' ∧ Inv c' ∧ c'.index = c.index ++ [k] ∧
      c'.capacity = c.capacity ∧ c'.Size = c.Size + 1 ∧
      (seqKeys c'.sequence).Perm (k :: seqKeys c.sequence) ∧
      findEntry k c'.sequence = some { key := k, value := v, container := 1 } := by
  obtain ⟨b, rest, hseq, hb⟩ := h.headOne
  have hknot : k ∉ seqKeys c.sequence := fun hc => hk ((mem_index_iff h).2 hc)
  have hback : BackRef (b :: rest) := by rw [← hseq]; exact h.backref
  have hnodup : (seqKeys (b :: rest)).Nodup := by rw [← hseq]; exact h.nodupKeys
  have hknot' : k ∉ seqKeys (b :: rest) := by rw [← hseq]; exact hknot
  obtain ⟨hbr, hpm, hnd, hfe⟩ := insertNew_spec k v hback hnodup hknot'
  have hput : c.Put k v
      = some { index := c.index ++ [k],
               sequence := insertNew k v b :: rest,
               capacity := c.capacity } := by
    rw [Cache.Put, if_neg hk, if_neg hroom, hseq]
  refine ⟨_, hput, ?_, rfl, rfl, ?_, ?_, ?_⟩
  · refine {
      headOne := ⟨insertNew k v b, rest, rfl, hb⟩
      sorted := ?_
      backref := hbr
      nodupKeys := hnd
      indexPerm := ?_
      capNonneg := h.capNonneg
      sizeLe := ?_ }
    · show List.Chain' (· < ·) (freqs (insertNew k v b :: rest))
      rw [insertNew_freqs, ← hseq]
      exact h.sorted
    · show (c.index ++ [k]).Perm (seqKeys (insertNew k v b :: rest))
      refine (List.perm_append_singleton _ _).trans ?_
      refine (List.Perm.cons k (h.indexPerm.trans (by rw [hseq]))).trans hpm.symm
    · show ((c.index ++ [k]).length : Int) ≤ c.capacity
      rw [List.length_append, List.length_singleton]
      have := h.sizeLe
      rw [Cache.Size] at this
      rw [Cache.Size, Cache.Capacity] at hroom
      push_cast
      omega
  · show (c.index ++ [k]).length = c.Size + 1
    rw [Cache.Size, List.length_append, List.length_singleton]
  · show (seqKeys (insertNew k v b :: rest)).Perm (k :: seqKeys c.sequence)
    rw [hseq]
    exact hpm
  · rw [hb] at hfe
    exact hfe

theorem headOne_of_freqs_eq {seq seq' : List (Bucket K V)} (hf : freqs seq' = freqs seq)
    (h : HeadOne seq) : HeadOne seq' := by
  obtain ⟨b, rest, rfl, hb⟩ := h
  cases seq' with
  | nil =>
    rw [freqs_cons] at hf
    exact absurd hf (by simp [freqs])
  | cons b1 rest1 =>
    rw [freqs_cons, freqs_cons] at hf
    injection hf with h1 h2
    exact ⟨b1, rest1, rfl, by rw [h1, hb]⟩

/-- Performing `Put` of a fresh key at capacity: the eviction scan's victim leaves the
index, the new key enters at frequency 1, and the size is unchanged. -/
theorem Put_fresh_full {c : Cache K V} {k : K} (v : V) (h : Inv c) (hk : k ∉ c.index)
    (hfull : (c.Size : Int) + 1 > c.Capacity) (vk : K) (seq1 : List (Bucket K V))
    (hevict : evictFirst c.sequence = some (vk, seq1)) :
    ∃ c', c.Put k v = some c' ∧ Inv c' ∧ c'.index = (c.index.erase vk) ++ [k] ∧
      c'.capacity = c.capacity ∧ vk ∈ c.index ∧ c'.Size = c.Size ∧
      seqKeys c.sequence = vk :: seqKeys seq1 ∧
      (seqKeys c'.sequence).Perm (k :: seqKeys seq1) ∧
      findEntry k c'.sequence = some { key := k, value := v, container := 1 } := by
  obtain ⟨hkeys, hfr, hbr⟩ := evictFirst_some_spec hevict
  obtain ⟨b1, rest1, hseq1, hb1⟩ := headOne_of_freqs_eq hfr h.headOne
  have hknot : k ∉ seqKeys c.sequence := fun hc => hk ((mem_index_iff h).2 hc)
  have hknot1 : k ∉ seqKeys seq1 := fun hc => hknot (by rw [hkeys]; exact List.mem_cons_of_mem _ hc)
  have hvkmem : vk ∈ c.index := (mem_index_iff h).2 (by rw [hkeys]; exact List.mem_cons_self _ _)
  have hback1 : BackRef (b1 :: rest1) := by rw [← hseq1]; exact hbr h.backref
  have hnodup0 : (vk :: seqKeys seq1).Nodup := by rw [← hkeys]; exact h.nodupKeys
  have hnodup1 : (seqKeys (b1 :: rest1)).Nodup := by
    rw [← hseq1]; exact (List.nodup_cons.1 hnodup0).2
  have hknot1' : k ∉ seqKeys (b1 :: rest1) := by rw [← hseq1]; exact hknot1
  obtain ⟨hbr', hpm, hnd, hfe⟩ := insertNew_spec k v hback1 hnodup1 hknot1'
  have hput : c.Put k v
      = some { index := (c.index.erase vk) ++ [k],
               sequence := insertNew k v b1 :: rest1,
               capacity := c.capacity } := by
    rw [Cache.Put, if_neg hk, if_pos hfull, hevict, hseq1]
  have hlen : (c.index.erase vk).length = c.index.length - 1 := List.length_erase_of_mem hvkmem
  have hposlen : 0 < c.index.length := List.length_pos_of_mem hvkmem
  refine ⟨_, hput, ?_, rfl, rfl, hvkmem, ?_, hkeys, ?_, ?_⟩
  · refine {
      headOne := ⟨insertNew k v b1, rest1, rfl, hb1⟩
      sorted := ?_
      backref := hbr'
      nodupKeys := hnd
      indexPerm := ?_
      capNonneg := h.capNonneg
      sizeLe := ?_ }
    · show List.Chain' (· < ·) (freqs (insertNew k v b1 :: rest1))
      rw [insertNew_freqs, ← hseq1, hfr]
      exact h.sorted
    · show ((c.index.erase vk) ++ [k]).Perm (seqKeys (insertNew k v b1 :: rest1))
      refine (List.perm_append_singleton _ _).trans ?_
      refine (List.Perm.cons k ?_).trans hpm.symm
      have h1 : (c.index.erase vk).Perm ((seqKeys c.sequence).erase vk) := h.indexPerm.erase vk
      rw [hkeys, List.erase_cons_head] at h1
      rw [hseq1] at h1
      exact h1
    · show (((c.index.erase vk) ++ [k]).length : Int) ≤ c.capacity
      rw [List.length_append, List.length_singleton, hlen]
      have := h.sizeLe
      rw [Cache.Size] at this
      push_cast
      omega
  · show ((c.index.erase vk) ++ [k]).length = c.Size
    rw [Cache.Size, List.length_append, List.length_singleton, hlen]
    omega
  · show (seqKeys (insertNew k v b1 :: rest1)).Perm (k :: seqKeys seq1)
    rw [hseq1]
    exact hpm
  · rw [hb1] at hfe
    exact hfe

theorem Put_inv {c c' : Cache K V} {k : K} {v : V} (h : Inv c) (hp : c.Put k v = some c') :
    Inv c' := by
  by_cases hk : k ∈ c.index
  · obtain ⟨c'', hp', hinv, -⟩ := Put_existing v h hk
    rw [hp] at hp'
    injection hp' with h1
    rw [h1]
    exact hinv
  · by_cases hfull : (c.Size : Int) + 1 > c.Capacity
    · cases hev : evictFirst c.sequence with
      | none =>
        rw [Cache.Put, if_neg hk, if_pos hfull, hev] at hp
        exact absurd hp (by simp)
      | some p =>
        obtain ⟨c'', hp', hinv, -⟩ :=
          Put_fresh_full v h hk hfull p.1 p.2 (by rw [hev])
        rw [hp] at hp'
        injection hp' with h1
        rw [h1]
        exact hinv
    · obtain ⟨c'', hp', hinv, -⟩ := Put_fresh_notfull v h hk hfull
      rw [hp] at hp'
      injection hp' with h1
      rw [h1]
      exact hinv

theorem inv_newCache (cap : Int) (hcap : 0 ≤ cap) :
    Inv ({ index := [], sequence := [{ freq := 1, entries := [] }],
           capacity := cap } : Cache K V) where
  headOne := ⟨_, _, rfl, rfl⟩
  sorted := List.chain'_singleton _
  backref := by
    intro b hb e he
    rcases List.mem_singleton.1 hb with rfl
    simp at he
  nodupKeys := by simp [seqKeys, bucketKeys]
  indexPerm := by simp [seqKeys, bucketKeys]
  capNonneg := hcap
  sizeLe := by simpa [Cache.Size] using hcap

/-- What `New` produces: a crash on more than one argument or a negative
capacity, otherwise an empty cache satisfying the invariant. -/
theorem New_spec {caps : List Int} {c : Cache K V} (h : New K V caps = some c) :
    Inv c ∧ c.index = [] ∧ c.sequence = [{ freq := 1, entries := [] }] ∧ 0 ≤ c.capacity := by
  have main : ∀ cap : Int, 0 ≤ cap →
      c = { index := [], sequence := [{ freq := 1, entries := [] }], capacity := cap } →
      Inv c ∧ c.index = [] ∧ c.sequence = [{ freq := 1, entries := [] }] ∧ 0 ≤ c.capacity := by
    rintro cap hcap rfl
    exact ⟨inv_newCache cap hcap, rfl, rfl, hcap⟩
  cases caps with
  | nil =>
    have hnew : New K V []
        = some { index := [], sequence := [{ freq := 1, entries := [] }],
                 capacity := DefaultCapacity } := rfl
    rw [hnew] at h
    injection h with h1
    exact main DefaultCapacity (by norm_num [DefaultCapacity]) h1.symm
  | cons a t =>
    cases t with
    | nil =>
      have hnew : New K V [a]
          = if a < 0 then none
            else some { index := [], sequence := [{ freq := 1, entries := [] }],
                        capacity := a } := rfl
      rw [hnew] at h
      by_cases ha : a < 0
      · rw [if_pos ha] at h
        exact absurd h (by simp)
      · rw [if_neg ha] at h
        injection h with h1
        exact main a (by omega) h1.symm
    | cons a2 t2 =>
      have hlen : (a :: a2 :: t2).length > 1 := by simp only [List.length_cons]; omega
      have hnew : New K V (a :: a2 :: t2) = none := by
        rw [New, if_pos hlen]
        intro c hc
        simp at hc
      rw [hnew] at h
      exact absurd h (by simp)

/-- Every reachable cache state satisfies the structural invariant. -/
theorem reach_inv {c : Cache K V} (h : Reach c) : Inv c := by
  induction h with
  | new caps c hnew => exact (New_spec hnew).1
  | get c k _ ih => exact Get_inv ih k
  | put c c' k v _ hput ih => exact Put_inv ih hput

/-! ## Lemmas about `All`, `allKF` and the early-stopping iterator -/

theorem find?_of_mem_nodup {l : List (Entry K V)} (hn : (l.map Entry.key).Nodup)
    {e : Entry K V} (he : e ∈ l) : l.find? (keyMatches e.key) = some e := by
  induction l with
  | nil => simp at he
  | cons a t ih =>
    have hn' : a.key ∉ t.map Entry.key ∧ (t.map Entry.key).Nodup := by
      rw [List.map_cons, List.nodup_cons] at hn
      exact hn
    rcases List.mem_cons.1 he with rfl | he'
    · exact List.find?_cons_of_pos _ (keyMatches_eq_true.2 rfl)
    · have hek : e.key ∈ t.map Entry.key := List.mem_map_of_mem _ he'
      have hne : a.key ≠ e.key := fun hc => hn'.1 (hc ▸ hek)
      rw [List.find?_cons_of_neg _ (by simp [keyMatches, hne])]
      exact ih hn'.2 he'

theorem mem_seqKeys_of_mem {seq : List (Bucket K V)} {b : Bucket K V} {e : Entry K V}
    (hb : b ∈ seq) (he : e ∈ b.entries) : e.key ∈ seqKeys seq :=
  List.mem_flatten.2 ⟨bucketKeys b, List.mem_map_of_mem _ hb, List.mem_map_of_mem _ he⟩

/-- Under key uniqueness, scanning for the key of a stored entry finds that
very entry. -/
theorem findEntry_of_mem {seq : List (Bucket K V)} (hn : (seqKeys seq).Nodup)
    {b : Bucket K V} {e : Entry K V} (hb : b ∈ seq) (he : e ∈ b.entries) :
    findEntry e.key seq = some e := by
  induction seq with
  | nil => simp at hb
  | cons b0 rest ih =>
    rw [seqKeys_cons, List.nodup_append] at hn
    rcases List.mem_cons.1 hb with rfl | hb'
    · exact findEntry_cons_some (find?_of_mem_nodup hn.1 he)
    · have hkey : e.key ∈ seqKeys rest := mem_seqKeys_of_mem hb' he
      have hnotb0 : e.key ∉ bucketKeys b0 := fun hc => hn.2.2 hc hkey
      rw [findEntry_cons_none (find?_none_of_not_mem_keys hnotb0)]
      exact ih hn.2.1 hb'

theorem flatten_reverse_perm (f : Entry K V → α) (seq : List (Bucket K V)) :
    ((seq.reverse.map fun b => b.entries.reverse.map f).flatten).Perm
      ((seq.map fun b => b.entries.map f).flatten) := by
  induction seq with
  | nil => exact List.Perm.refl _
  | cons b rest ih =>
    rw [List.reverse_cons, List.map_append, List.flatten_append]
    simp only [List.map_cons, List.map_nil, List.flatten_cons, List.flatten_nil,
      List.append_nil]
    exact List.perm_append_comm.trans
      ((((b.entries.reverse_perm).map f).append ih))

theorem All_map_fst (c : Cache K V) :
    (c.All).map Prod.fst
      = (c.sequence.reverse.map fun b => b.entries.reverse.map Entry.key).flatten := by
  rw [Cache.All, List.map_flatten, List.map_map]
  congr 1
  apply List.map_congr_left
  intro b _
  simp [List.map_map, Function.comp]

theorem allKF_map_fst (c : Cache K V) :
    (allKF c).map Prod.fst
      = (c.sequence.reverse.map fun b => b.entries.reverse.map Entry.key).flatten := by
  rw [allKF, List.map_flatten, List.map_map]
  congr 1
  apply List.map_congr_left
  intro b _
  simp [List.map_map, Function.comp]

theorem All_fst_perm_seqKeys (c : Cache K V) :
    ((c.All).map Prod.fst).Perm (seqKeys c.sequence) := by
  rw [All_map_fst]
  have h := flatten_reverse_perm (Entry.key) c.sequence
  refine h.trans ?_
  rw [show (c.sequence.map fun b => b.entries.map Entry.key) = c.sequence.map bucketKeys from rfl]
  exact List.Perm.refl _

theorem mem_All {c : Cache K V} {p : K × V} (hp : p ∈ c.All) :
    ∃ b ∈ c.sequence, ∃ e ∈ b.entries, p = (e.key, e.value) := by
  rw [Cache.All] at hp
  rcases List.mem_flatten.1 hp with ⟨l, hl, hpl⟩
  rcases List.mem_map.1 hl with ⟨b, hb, rfl⟩
  rcases List.mem_map.1 hpl with ⟨e, he, rfl⟩
  exact ⟨b, List.mem_reverse.1 hb, e, List.mem_reverse.1 he, rfl⟩

theorem mem_allKF {c : Cache K V} {p : K × Nat} (hp : p ∈ allKF c) :
    ∃ b ∈ c.sequence, ∃ e ∈ b.entries, p = (e.key, b.freq) := by
  rw [allKF] at hp
  rcases List.mem_flatten.1 hp with ⟨l, hl, hpl⟩
  rcases List.mem_map.1 hl with ⟨b, hb, rfl⟩
  rcases List.mem_map.1 hpl with ⟨e, he, rfl⟩
  exact ⟨b, List.mem_reverse.1 hb, e, List.mem_reverse.1 he, rfl⟩

/-- Every pair produced by `All` carries the value currently stored for its
key. -/
theorem All_value {c : Cache K V} (h : Inv c) {p : K × V} (hp : p ∈ c.All) :
    (findEntry p.1 c.sequence).map Entry.value = some p.2 := by
  rcases mem_All hp with ⟨b, hb, e, he, rfl⟩
  rw [findEntry_of_mem h.nodupKeys hb he, Option.map_some']

/-- Every pair of `allKF` carries its key's reported frequency. -/
theorem allKF_freq {c : Cache K V} (h : Inv c) {p : K × Nat} (hp : p ∈ allKF c) :
    c.GetKeyFrequency p.1 = some p.2 := by
  rcases mem_allKF hp with ⟨b, hb, e, he, rfl⟩
  have hmem : e.key ∈ c.index := (mem_index_iff h).2 (mem_seqKeys_of_mem hb he)
  rw [Cache.GetKeyFrequency, if_pos hmem, findEntry_of_mem h.nodupKeys hb he,
    Option.map_some', h.backref b hb e he]

theorem pairwise_trivial {α : Type _} {R : α → α → Prop} (hR : ∀ a b, R a b) (l : List α) :
    List.Pairwise R l := by
  induction l with
  | nil => exact List.Pairwise.nil
  | cons a t ih => exact List.Pairwise.cons (fun b _ => hR a b) ih

/-- The frequency annotations along the `All` traversal never increase:
descending-frequency order. -/
theorem allKF_snd_pairwise {c : Cache K V} (h : Inv c) :
    List.Pairwise (· ≥ ·) ((allKF c).map Prod.snd) := by
  have hsnd : (allKF c).map Prod.snd
      = (c.sequence.reverse.map fun b => b.entries.reverse.map fun _ => b.freq).flatten := by
    rw [allKF, List.map_flatten, List.map_map]
    congr 1
    apply List.map_congr_left
    intro b _
    simp [List.map_map, Function.comp_def, List.map_reverse, List.map_const,
      List.length_reverse]
  rw [hsnd, List.pairwise_flatten]
  have hpw : List.Pairwise (fun b1 b2 : Bucket K V => b2.freq < b1.freq) c.sequence.reverse := by
    rw [List.pairwise_reverse]
    have := (List.chain'_iff_pairwise).1 h.sorted
    rw [freqs] at this
    exact List.pairwise_map.1 this
  constructor
  · intro l hl
    rcases List.mem_map.1 hl with ⟨b, -, rfl⟩
    exact List.pairwise_map.2 (pairwise_trivial (fun _ _ => le_refl _) _)
  · refine List.pairwise_map.2 (List.Pairwise.imp ?_ hpw)
    intro b1 b2 h12
    intro x hx y hy
    rcases List.mem_map.1 hx with ⟨-, -, rfl⟩
    rcases List.mem_map.1 hy with ⟨-, -, rfl⟩
    exact le_of_lt h12

theorem yieldEntries_spec (yield : K → V → Bool) :
    ∀ l : List (Entry K V),
      (yieldEntries yield l).1 <+: (l.map fun e => (e.key, e.value)) ∧
      ((yieldEntries yield l).2 = true →
        (yieldEntries yield l).1 = l.map fun e => (e.key, e.value)) := by
  intro l
  induction l with
  | nil => exact ⟨List.nil_prefix, fun _ => rfl⟩
  | cons e es ih =>
    by_cases hy : yield e.key e.value = true
    · obtain ⟨⟨t, ht⟩, hfull⟩ := ih
      constructor
      · show (yieldEntries yield (e :: es)).1 <+: _
        simp only [yieldEntries, if_pos hy]
        exact ⟨t, by rw [List.map_cons, List.cons_append, ht]⟩
      · intro h2
        simp only [yieldEntries, if_pos hy] at h2 ⊢
        rw [List.map_cons, hfull h2]
    · constructor
      · show (yieldEntries yield (e :: es)).1 <+: _
        simp only [yieldEntries, if_neg hy]
        exact List.nil_prefix
      · intro h2
        simp only [yieldEntries, if_neg hy] at h2
        exact Bool.noConfusion h2

theorem yieldBuckets_prefix (yield : K → V → Bool) :
    ∀ L : List (Bucket K V),
      (yieldBuckets yield L).1 <+:
        (L.map fun b => b.entries.reverse.map fun e => (e.key, e.value)).flatten := by
  intro L
  induction L with
  | nil => exact List.nil_prefix
  | cons b bs ih =>
    obtain ⟨hpre, hfull⟩ := yieldEntries_spec yield b.entries.reverse
    by_cases hr : (yieldEntries yield b.entries.reverse).2 = true
    · simp only [yieldBuckets, if_pos hr]
      rw [List.map_cons, List.flatten_cons, hfull hr]
      obtain ⟨t, ht⟩ := ih
      exact ⟨t, by rw [List.append_assoc, ht]⟩
    · simp only [yieldBuckets, if_neg hr]
      rw [List.map_cons, List.flatten_cons]
      exact hpre.trans (List.prefix_append _ _)

/-- Stopping the `All` iterator early yields some prefix of the full
enumeration (and, by the shape of `AllWhile`, returns no modified cache). -/
theorem AllWhile_prefix (c : Cache K V) (yield : K → V → Bool) :
    ∃ n, c.AllWhile yield = (c.All).take n := by
  have h := yieldBuckets_prefix yield c.sequence.reverse
  rw [List.prefix_iff_eq_take] at h
  exact ⟨_, h⟩

/-- A consumer that never stops receives the full enumeration: the iterator
is restartable and `AllWhile` refines `All`. -/
theorem AllWhile_true (c : Cache K V) : c.AllWhile (fun _ _ => true) = c.All := by
  suffices h : ∀ L : List (Bucket K V),
      yieldBuckets (K := K) (V := V) (fun _ _ => true) L
        = ((L.map fun b => b.entries.reverse.map fun e => (e.key, e.value)).flatten, true) by
    rw [Cache.AllWhile, h, Cache.All]
  intro L
  induction L with
  | nil => rfl
  | cons b bs ih =>
    have he : ∀ l : List (Entry K V),
        yieldEntries (K := K) (V := V) (fun _ _ => true) l
          = (l.map fun e => (e.key, e.value), true) := by
      intro l
      induction l with
      | nil => rfl
      | cons e es ih2 => simp [yieldEntries, ih2]
    simp [yieldBuckets, he, ih]

/-! ## Frequency arithmetic along accesses (for `keyFrequency`) -/

theorem applyAcc_spec {c : Cache K V} {k : K} (h : Inv c) {f : Nat}
    (hf : c.GetKeyFrequency k = some f) (a : Acc V) :
    Inv (applyAcc k c a) ∧ (applyAcc k c a).GetKeyFrequency k = some (f + 1) := by
  have hk : k ∈ c.index := by
    by_contra hk
    rw [Cache.GetKeyFrequency, if_neg hk] at hf
    exact Option.noConfusion hf
  cases a with
  | g =>
    obtain ⟨e, he, -, -, -, -, hfc, hfreq'⟩ := Get_spec h hk
    have hef : e.container = f := by
      rw [hfc] at hf
      injection hf
    refine ⟨Get_inv h k, ?_⟩
    rw [show applyAcc k c Acc.g = (c.Get k).2 from rfl, hfreq', hef]
  | p v =>
    obtain ⟨c', hp, hinv, hidx, -, -, e, he, hfe'⟩ := Put_existing v h hk
    have happ : applyAcc k c (Acc.p v) = c' := by
      rw [applyAcc, hp]
      rfl
    have hef : e.container = f := by
      rw [Cache.GetKeyFrequency, if_pos hk, he, Option.map_some'] at hf
      injection hf
    rw [happ]
    refine ⟨hinv, ?_⟩
    rw [Cache.GetKeyFrequency, if_pos (by rw [hidx]; exact hk), hfe', Option.map_some', hef]

theorem applyAccs_spec {c : Cache K V} {k : K} (h : Inv c) {f : Nat}
    (hf : c.GetKeyFrequency k = some f) (l : List (Acc V)) :
    Inv (applyAccs k c l) ∧ (applyAccs k c l).GetKeyFrequency k = some (f + l.length) := by
  induction l generalizing c f with
  | nil => exact ⟨h, by simpa [applyAccs] using hf⟩
  | cons a t ih =>
    obtain ⟨h1, h2⟩ := applyAcc_spec h hf a
    obtain ⟨h3, h4⟩ := ih h1 h2
    constructor
    · exact h3
    · show (applyAccs k (applyAcc k c a) t).GetKeyFrequency k = some (f + (a :: t).length)
      rw [h4]
      exact congrArg some (by rw [List.length_cons]; omega)

/-! ## Size accounting over operation traces -/

theorem Get_index (c : Cache K V) (k : K) : (c.Get k).2.index = c.index := by
  rw [Cache.Get]
  split <;> rfl

theorem Get_capacity_eq (c : Cache K V) (k : K) : (c.Get k).2.capacity = c.capacity := by
  rw [Cache.Get]
  split <;> rfl

theorem stepCount_spec {c : Cache K V} (h : Inv c) {op : Op K V} {c' : Cache K V} {i e : Nat}
    (hs : stepCount c op = some (c', i, e)) :
    Inv c' ∧ c'.Size + e = c.Size + i ∧ c'.Capacity = c.Capacity := by
  cases op with
  | get k =>
    simp only [stepCount, Option.some.injEq, Prod.mk.injEq] at hs
    obtain ⟨rfl, rfl, rfl⟩ := hs
    refine ⟨Get_inv h k, ?_, ?_⟩
    · rw [Cache.Size, Cache.Size, Get_index]
    · rw [Cache.Capacity, Cache.Capacity, Get_capacity_eq]
  | put k v =>
    rw [stepCount] at hs
    cases hp : c.Put k v with
    | none =>
      simp only [hp] at hs
      exact Option.noConfusion hs
    | some c2 =>
      simp only [hp] at hs
      by_cases hk : k ∈ c.index
      · rw [if_pos hk] at hs
        simp only [Option.some.injEq, Prod.mk.injEq] at hs
        obtain ⟨rfl, rfl, rfl⟩ := hs
        obtain ⟨c3, hp3, hinv3, hidx3, hcap3, -⟩ := Put_existing v h hk
        rw [hp] at hp3
        injection hp3 with h1
        subst h1
        refine ⟨hinv3, ?_, ?_⟩
        · rw [Cache.Size, Cache.Size, hidx3]
        · rw [Cache.Capacity, Cache.Capacity, hcap3]
      · rw [if_neg hk] at hs
        by_cases hfull : (c.Size : Int) + 1 > c.Capacity
        · rw [if_pos hfull] at hs
          simp only [Option.some.injEq, Prod.mk.injEq] at hs
          obtain ⟨rfl, rfl, rfl⟩ := hs
          cases hev : evictFirst c.sequence with
          | none =>
            rw [Cache.Put, if_neg hk, if_pos hfull, hev] at hp
            exact Option.noConfusion hp
          | some p =>
            obtain ⟨c3, hp3, hinv3, -, hcap3, -, hsz3, -⟩ :=
              Put_fresh_full v h hk hfull p.1 p.2 (by rw [hev])
            rw [hp] at hp3
            injection hp3 with h1
            subst h1
            refine ⟨hinv3, ?_, ?_⟩
            · rw [hsz3]
            · rw [Cache.Capacity, Cache.Capacity, hcap3]
        · rw [if_neg hfull] at hs
          simp only [Option.some.injEq, Prod.mk.injEq] at hs
          obtain ⟨rfl, rfl, rfl⟩ := hs
          obtain ⟨c3, hp3, hinv3, -, hcap3, hsz3, -⟩ := Put_fresh_notfull v h hk hfull
          rw [hp] at hp3
          injection hp3 with h1
          subst h1
          refine ⟨hinv3, ?_, ?_⟩
          · rw [hsz3]
          · rw [Cache.Capacity, Cache.Capacity, hcap3]

theorem runCount_spec {ops : List (Op K V)} :
    ∀ {c : Cache K V} {c' : Cache K V} {i e : Nat}, Inv c →
      runCount c ops = some (c', i, e) →
      Inv c' ∧ c'.Size + e = c.Size + i ∧ c'.Capacity = c.Capacity := by
  induction ops with
  | nil =>
    intro c c' i e h hr
    simp only [runCount, Option.some.injEq, Prod.mk.injEq] at hr
    obtain ⟨rfl, rfl, rfl⟩ := hr
    exact ⟨h, rfl, rfl⟩
  | cons op ops ih =>
    intro c c' i e h hr
    rw [runCount] at hr
    cases hs : stepCount c op with
    | none =>
      rw [hs, Option.none_bind] at hr
      exact Option.noConfusion hr
    | some r =>
      obtain ⟨r1, r2, r3⟩ := r
      rw [hs, Option.some_bind] at hr
      cases hrc : runCount r1 ops with
      | none =>
        rw [hrc, Option.map_none'] at hr
        exact Option.noConfusion hr
      | some s =>
        obtain ⟨s1, s2, s3⟩ := s
        rw [hrc, Option.map_some'] at hr
        simp only [Option.some.injEq, Prod.mk.injEq] at hr
        obtain ⟨rfl, rfl, rfl⟩ := hr
        obtain ⟨h1, h2, h3⟩ := stepCount_spec h hs
        obtain ⟨h4, h5, h6⟩ := ih h1 hrc
        exact ⟨h4, by omega, by rw [h6, h3]⟩

/-! ## The eviction victim -/

/-- The victim of the eviction scan is the head (oldest) entry of a
non-empty bucket whose frequency is minimal among all non-empty buckets. -/
theorem evictFirst_victim {seq : List (Bucket K V)}
    (hs : List.Pairwise (· < ·) (freqs seq)) {vk : K} {seq' : List (Bucket K V)}
    (hev : evictFirst seq = some (vk, seq')) :
    ∃ b ∈ seq, b.entries ≠ [] ∧ b.entries.head?.map Entry.key = some vk ∧
      ∀ b' ∈ seq, b'.entries ≠ [] → b.freq ≤ b'.freq := by
  induction seq generalizing vk seq' with
  | nil => simp [evictFirst] at hev
  | cons b rest ih =>
    rw [freqs_cons, List.pairwise_cons] at hs
    have hs1 : ∀ b' ∈ rest, b.freq < b'.freq := fun b' hb' =>
      hs.1 b'.freq (List.mem_map_of_mem _ hb')
    cases hbe : b.entries with
    | cons e es =>
      simp only [evictFirst, hbe, Option.some.injEq, Prod.mk.injEq] at hev
      obtain ⟨rfl, -⟩ := hev
      refine ⟨b, List.mem_cons_self _ _, by rw [hbe]; simp, by rw [hbe]; rfl, ?_⟩
      intro b' hb' hne
      rcases List.mem_cons.1 hb' with rfl | hb'
      · exact le_refl _
      · exact le_of_lt (hs1 b' hb')
    | nil =>
      simp only [evictFirst, hbe] at hev
      cases hev2 : evictFirst rest with
      | none =>
        rw [hev2] at hev
        exact Option.noConfusion hev
      | some p =>
        rw [hev2] at hev
        simp only [Option.map_some', Option.some.injEq, Prod.mk.injEq] at hev
        obtain ⟨rfl, -⟩ := hev
        obtain ⟨b0, hb0, hne, hhd, hmin⟩ := ih hs.2 (by rw [hev2])
        refine ⟨b0, List.mem_cons_of_mem _ hb0, hne, hhd, ?_⟩
        intro b' hb' hne'
        rcases List.mem_cons.1 hb' with rfl | hb'
        · exact absurd hbe hne'
        · exact hmin b' hb' hne'

/-! ## The capacity-plus-one insertion scenario -/

theorem Put_eq_notfull {c : Cache K V} {k : K} (v : V) (hk : k ∉ c.index)
    (hroom : ¬((c.Size : Int) + 1 > c.Capacity)) {b : Bucket K V} {rest : List (Bucket K V)}
    (hseq : c.sequence = b :: rest) :
    c.Put k v = some { index := c.index ++ [k],
                       sequence := insertNew k v b :: rest,
                       capacity := c.capacity } := by
  rw [Cache.Put, if_neg hk, if_neg hroom, hseq]

theorem Put_eq_full {c : Cache K V} {k : K} (v : V) (hk : k ∉ c.index)
    (hfull : (c.Size : Int) + 1 > c.Capacity) {vk : K} {seq1 : List (Bucket K V)}
    (hev : evictFirst c.sequence = some (vk, seq1)) {b : Bucket K V}
    {rest : List (Bucket K V)} (hseq1 : seq1 = b :: rest) :
    c.Put k v = some { index := (c.index.erase vk) ++ [k],
                       sequence := insertNew k v b :: rest,
                       capacity := c.capacity } := by
  rw [Cache.Put, if_neg hk, if_pos hfull, hev, hseq1]

theorem putList_append_singleton (c : Cache Nat Nat) (l : List Nat) (a : Nat) :
    putList c (l ++ [a]) = (putList c l).bind fun c' => c'.Put a a := by
  rw [putList, putList, List.foldlM_append]
  cases h : List.foldlM (fun c k => c.Put k k) c l with
  | none => rfl
  | some c' => simp [List.foldlM]

/-- After inserting the keys `0, …, j-1` into a fresh cache of capacity
`C ≥ j`, the cache holds exactly those keys, in insertion order, in the
frequency-1 bucket. -/
theorem putList_range (C : Int) :
    ∀ j : Nat, (j : Int) ≤ C →
      putList { index := [], sequence := [{ freq := 1, entries := [] }], capacity := C }
          (List.range j)
        = some { index := List.range j,
                 sequence := [{ freq := 1, entries := (List.range j).map fun i =>
                   { key := i, value := i, container := 1 } }],
                 capacity := C } := by
  intro j
  induction j with
  | zero => intro _; rfl
  | succ m ih =>
    intro hle
    have hm : (m : Int) ≤ C := by push_cast at hle ⊢; omega
    rw [List.range_succ, putList_append_singleton, ih hm, Option.some_bind]
    refine (Put_eq_notfull m ?_ ?_ rfl).trans ?_
    · simp
    · rw [Cache.Size, Cache.Capacity]
      simp only [List.length_range]
      push_cast at hle ⊢
      omega
    · simp [insertNew, List.range_succ, List.map_append]

/-- Inserting keys `0, …, C` (no gets in between) into a fresh cache of
capacity `C ≥ 1` succeeds and leaves exactly the keys `1, …, C`: the
first-inserted key `0` is the one evicted. -/
theorem putList_overflow (C : Nat) (hC : 1 ≤ C) :
    ∃ cfin : Cache Nat Nat,
      putList { index := [], sequence := [{ freq := 1, entries := [] }], capacity := (C : Int) }
          (List.range (C + 1)) = some cfin ∧
      cfin.index = (List.range C).map Nat.succ ∧ cfin.Size = C := by
  obtain ⟨m, rfl⟩ : ∃ m, C = m + 1 := ⟨C - 1, by omega⟩
  rw [List.range_succ, putList_append_singleton,
    putList_range ((m + 1 : Nat) : Int) (m + 1) (le_refl _), Option.some_bind]
  have hev : evictFirst
        ([{ freq := 1,
            entries := (List.range (m + 1)).map fun i =>
              ({ key := i, value := i, container := 1 } : Entry Nat Nat) }] :
          List (Bucket Nat Nat))
      = some (0,
          [{ freq := 1,
             entries := ((List.range m).map Nat.succ).map fun i =>
               ({ key := i, value := i, container := 1 } : Entry Nat Nat) }]) := by
    rw [List.range_succ_eq_map, List.map_cons]
    rfl
  have h1 : (List.range (m + 1)).erase 0 = List.map Nat.succ (List.range m) := by
    rw [List.range_succ_eq_map, List.erase_cons_head]
  have h2 : List.map Nat.succ (List.range (m + 1))
      = List.map Nat.succ (List.range m) ++ [Nat.succ m] := by
    rw [List.range_succ, List.map_append]
    rfl
  refine ⟨_, Put_eq_full (m + 1) ?_ ?_ hev rfl, ?_, ?_⟩
  · simp
  · rw [Cache.Size, Cache.Capacity]
    simp only [List.length_range]
    push_cast
    omega
  · show (List.range (m + 1)).erase 0 ++ [m + 1] = (List.range (m + 1)).map Nat.succ
    rw [h1, h2]
  · show ((List.range (m + 1)).erase 0 ++ [m + 1]).length = m + 1
    rw [h1]
    simp

theorem Put_capacity {c c' : Cache K V} {k : K} {v : V} (hp : c.Put k v = some c') :
    c'.capacity = c.capacity := by
  rw [Cache.Put] at hp
  split at hp
  · injection hp with h1
    rw [← h1]
  · split at hp
    · split at hp
      · exact Option.noConfusion hp
      · split at hp
        · exact Option.noConfusion hp
        · injection hp with h1
          rw [← h1]
    · split at hp
      · exact Option.noConfusion hp
      · injection hp with h1
        rw [← h1]

/-! ## The claims -/

/-- C6: `Get` and `GetKeyFrequency` on a key that is not cached both fail
with `KeyNotFound` (`none`), and neither changes any observable cache
state: `Get` returns the very same cache (so size, buckets, frequencies and
values are untouched), and `GetKeyFrequency` returns no cache at all. -/
theorem claim_C6 (c : Cache K V) (k : K) (hk : k ∉ c.index) :
    (c.Get k).1 = none ∧ (c.Get k).2 = c ∧ c.GetKeyFrequency k = none ∧
    (c.Get k).2.Size = c.Size ∧ (c.Get k).2.sequence = c.sequence := by
  obtain ⟨h1, h2⟩ := Get_miss hk
  exact ⟨by rw [h1], by rw [h1], h2, by rw [h1], by rw [h1]⟩

theorem claim_C6_witness :
    ((0 : Nat) ∉ (wCache 5 [] []).index) ∧
    (((wCache 5 [] []).Get 0).1 = none ∧
      ((wCache 5 [] []).Get 0).2 = wCache 5 [] [] ∧
      (wCache 5 [] []).GetKeyFrequency 0 = none ∧
      ((wCache 5 [] []).Get 0).2.Size = (wCache 5 [] []).Size ∧
      ((wCache 5 [] []).Get 0).2.sequence = (wCache 5 [] []).sequence) :=
  ⟨by simp [wCache], claim_C6 _ 0 (by simp [wCache])⟩

/-- C9: constructing with a negative capacity aborts (`none`, the panic);
constructing with the capacity omitted gives `Capacity = 5`; every
successful construction returns the configured capacity with an empty
cache, and the capacity is immutable under `Get` and `Put`. -/
theorem claim_C9 (K V : Type) [DecidableEq K] :
    (∀ cap : Int, cap < 0 → New K V [cap] = none) ∧
    (∃ c : Cache K V, New K V [] = some c ∧ c.Capacity = 5 ∧ c.Size = 0) ∧
    (∀ cap : Int, 0 ≤ cap →
      ∃ c : Cache K V, New K V [cap] = some c ∧ c.Capacity = cap ∧ c.Size = 0) ∧
    (∀ (c : Cache K V) (k : K), (c.Get k).2.Capacity = c.Capacity) ∧
    (∀ (c c' : Cache K V) (k : K) (v : V), c.Put k v = some c' →
      c'.Capacity = c.Capacity) := by
  refine ⟨?_, ?_, ?_, ?_, ?_⟩
  · intro cap hneg
    have hnew : New K V [cap]
        = if cap < 0 then none
          else some { index := [], sequence := [{ freq := 1, entries := [] }],
                      capacity := cap } := rfl
    rw [hnew, if_pos hneg]
  · exact ⟨_, rfl, rfl, rfl⟩
  · intro cap hpos
    have hnew : New K V [cap]
        = if cap < 0 then none
          else some { index := [], sequence := [{ freq := 1, entries := [] }],
                      capacity := cap } := rfl
    refine ⟨{ index := [], sequence := [{ freq := 1, entries := [] }], capacity := cap },
      ?_, rfl, rfl⟩
    rw [hnew, if_neg (not_lt.2 hpos)]
  · intro c k
    rw [Cache.Capacity, Cache.Capacity, Get_capacity_eq]
  · intro c c' k v hp
    rw [Cache.Capacity, Cache.Capacity, Put_capacity hp]

theorem claim_C9_witness :
    New Nat Nat [-1] = none ∧
    (∃ c : Cache Nat Nat, New Nat Nat [] = some c ∧ c.Capacity = 5 ∧ c.Size = 0) :=
  ⟨(claim_C9 Nat Nat).1 (-1) (by norm_num), (claim_C9 Nat Nat).2.1⟩

/-- C4 counterexample: a zero-capacity cache is constructed successfully,
yet `Put` of a fresh key crashes (the eviction scan dereferences nil,
`none` in the embedding) — so `put` does not always succeed for every
reachable cache with capacity ≥ 0. -/
theorem claim_C4_cex :
    New Nat Nat [0]
      = some { index := [], sequence := [{ freq := 1, entries := [] }], capacity := 0 } ∧
    ({ index := [], sequence := [{ freq := 1, entries := [] }],
       capacity := 0 } : Cache Nat Nat).Put 0 0 = none := by
  constructor <;> rfl

/-- C4 (amended): on every reachable cache whose capacity is at least 1,
`Put` always succeeds. -/
theorem claim_C4_amended (c : Cache K V) (hreach : Reach c)
    (hcap : 1 ≤ c.Capacity) (k : K) (v : V) : ∃ c', c.Put k v = some c' := by
  have h := reach_inv hreach
  by_cases hk : k ∈ c.index
  · obtain ⟨c', hp, -⟩ := Put_existing v h hk
    exact ⟨c', hp⟩
  · by_cases hfull : (c.Size : Int) + 1 > c.Capacity
    · have hsz : 1 ≤ c.index.length := by
        rw [Cache.Capacity] at hcap
        have hfull2 := hfull
        rw [Cache.Size, Cache.Capacity] at hfull2
        omega
      have hne : seqKeys c.sequence ≠ [] := by
        intro hempty
        have hlen := h.indexPerm.length_eq
        rw [hempty] at hlen
        simp only [List.length_nil] at hlen
        omega
      cases hev : evictFirst c.sequence with
      | none => exact absurd ((evictFirst_none_iff _).1 hev) hne
      | some p =>
        obtain ⟨c', hp, -⟩ :=
          Put_fresh_full v h hk hfull p.1 p.2 (by rw [hev])
        exact ⟨c', hp⟩
    · obtain ⟨c', hp, -⟩ := Put_fresh_notfull v h hk hfull
      exact ⟨c', hp⟩

theorem claim_C4_witness :
    ∃ c', ({ index := [], sequence := [{ freq := 1, entries := [] }],
             capacity := 1 } : Cache Nat Nat).Put 0 0 = some c' :=
  claim_C4_amended _ (Reach.new [1] _ rfl) (by decide) 0 0

/-- C8: every reachable cache satisfies the structural invariant: a
non-empty bucket sequence headed by the permanent frequency-1 bucket,
strictly increasing (hence pairwise distinct) bucket frequencies, accurate
bucket back-references on all entries, and a duplicate-free index that
matches the cached keys exactly, with the reported size equal to the total
entry count. -/
theorem claim_C8 (c : Cache K V) (h : Reach c) :
    HeadOne c.sequence ∧
    List.Chain' (· < ·) (freqs c.sequence) ∧
    (freqs c.sequence).Nodup ∧
    BackRef c.sequence ∧
    (seqKeys c.sequence).Nodup ∧
    c.index.Nodup ∧
    (∀ k, k ∈ c.index ↔ k ∈ seqKeys c.sequence) ∧
    c.index.length = (seqKeys c.sequence).length ∧
    c.Size = (seqKeys c.sequence).length := by
  have hi := reach_inv h
  refine ⟨hi.headOne, hi.sorted, ?_, hi.backref, hi.nodupKeys, ?_, ?_, ?_, ?_⟩
  · have hpw := (List.chain'_iff_pairwise).1 hi.sorted
    exact hpw.imp Nat.ne_of_lt
  · exact hi.indexPerm.nodup_iff.2 hi.nodupKeys
  · intro k
    exact hi.indexPerm.mem_iff
  · exact hi.indexPerm.length_eq
  · rw [Cache.Size]
    exact hi.indexPerm.length_eq

theorem claim_C8_witness :
    HeadOne (wCache 5 [] []).sequence ∧
    List.Chain' (· < ·) (freqs (wCache 5 [] []).sequence) ∧
    (freqs (wCache 5 [] []).sequence).Nodup ∧
    BackRef (wCache 5 [] []).sequence ∧
    (seqKeys (wCache 5 [] []).sequence).Nodup ∧
    (wCache 5 [] []).index.Nodup ∧
    (∀ k : Nat, k ∈ (wCache 5 [] []).index ↔ k ∈ seqKeys (wCache 5 [] []).sequence) ∧
    (wCache 5 [] []).index.length = (seqKeys (wCache 5 [] []).sequence).length ∧
    (wCache 5 [] []).Size = (seqKeys (wCache 5 [] []).sequence).length :=
  claim_C8 _ (Reach.new [] _ rfl)

/-- C7: over any trace of operations started from `New`, the final size
equals the number of key-inserting puts minus the number of evictions
(equivalently, the number of currently cached keys), and it never exceeds
the capacity. -/
theorem claim_C7 (caps : List Int) (c0 : Cache K V) (hnew : New K V caps = some c0)
    (ops : List (Op K V)) (c : Cache K V) (ins ev : Nat)
    (hrun : runCount c0 ops = some (c, ins, ev)) :
    c.Size + ev = ins ∧ (c.Size : Int) ≤ c.Capacity ∧
    c.Size = (seqKeys c.sequence).length := by
  obtain ⟨hinv0, hidx0, -, -⟩ := New_spec hnew
  obtain ⟨hinv, hsz, -⟩ := runCount_spec hinv0 hrun
  refine ⟨?_, hinv.sizeLe, ?_⟩
  · have h0 : c0.Size = 0 := by rw [Cache.Size, hidx0]; rfl
    omega
  · rw [Cache.Size]
    exact hinv.indexPerm.length_eq

theorem claim_C7_witness :
    (wCache 2 [1] [{ key := 1, value := 1, container := 1 }]).Size + 0 = 1 ∧
    (((wCache 2 [1] [{ key := 1, value := 1, container := 1 }]).Size : Int)
      ≤ (wCache 2 [1] [{ key := 1, value := 1, container := 1 }]).Capacity) ∧
    (wCache 2 [1] [{ key := 1, value := 1, container := 1 }]).Size
      = (seqKeys (wCache 2 [1] [{ key := 1, value := 1, container := 1 }]).sequence).length :=
  claim_C7 [2] _ rfl [Op.put 1 1] _ 1 0 rfl

/-- A successful `Put` of a fresh key leaves the key cached with value `v`
and frequency 1, whichever branch (evicting or not) was taken. -/
theorem Put_fresh_found {c c' : Cache K V} {k : K} {v : V} (h : Inv c) (hk : k ∉ c.index)
    (hp : c.Put k v = some c') :
    Inv c' ∧ k ∈ c'.index ∧
    findEntry k c'.sequence = some { key := k, value := v, container := 1 } := by
  by_cases hfull : (c.Size : Int) + 1 > c.Capacity
  · cases hev : evictFirst c.sequence with
    | none =>
      rw [Cache.Put, if_neg hk, if_pos hfull, hev] at hp
      exact Option.noConfusion hp
    | some p =>
      obtain ⟨c'', hp', hinv', hidx', -, -, -, -, -, hfe⟩ :=
        Put_fresh_full v h hk hfull p.1 p.2 (by rw [hev])
      rw [hp] at hp'
      injection hp' with h1
      subst h1
      refine ⟨hinv', ?_, hfe⟩
      rw [hidx']
      exact List.mem_append_right _ (List.mem_singleton.2 rfl)
  · obtain ⟨c'', hp', hinv', hidx', -, -, -, hfe⟩ := Put_fresh_notfull v h hk hfull
    rw [hp] at hp'
    injection hp' with h1
    subst h1
    refine ⟨hinv', ?_, hfe⟩
    rw [hidx']
    exact List.mem_append_right _ (List.mem_singleton.2 rfl)

/-- C3: `put(k, v)` immediately followed by `get(k)` returns `v` with no
error; when `k` was not cached before the put, its frequency is 1 right
after the put and 2 after the get. -/
theorem claim_C3 (c c' : Cache K V) (k : K) (v : V)
    (hreach : Reach c) (hp : c.Put k v = some c') :
    (c'.Get k).1 = some v ∧
    (k ∉ c.index →
      c'.GetKeyFrequency k = some 1 ∧ (c'.Get k).2.GetKeyFrequency k = some 2) := by
  have h := reach_inv hreach
  by_cases hk : k ∈ c.index
  · obtain ⟨c'', hp', hinv', hidx', -, -, e, he, hfe'⟩ := Put_existing v h hk
    rw [hp] at hp'
    injection hp' with h1
    subst h1
    constructor
    · have hk' : k ∈ c'.index := by rw [hidx']; exact hk
      obtain ⟨e2, he2, hval, -⟩ := Get_spec hinv' hk'
      rw [hfe'] at he2
      injection he2 with h2
      rw [hval, ← h2]
    · intro hkn
      exact absurd hk hkn
  · obtain ⟨hinv', hk', hfe⟩ := Put_fresh_found h hk hp
    constructor
    · obtain ⟨e2, he2, hval, -⟩ := Get_spec hinv' hk'
      rw [hfe] at he2
      injection he2 with h2
      rw [hval, ← h2]
    · intro _
      constructor
      · rw [Cache.GetKeyFrequency, if_pos hk', hfe, Option.map_some']
      · obtain ⟨e2, he2, -, -, -, -, -, hfreq2⟩ := Get_spec hinv' hk'
        rw [hfe] at he2
        injection he2 with h2
        rw [hfreq2, ← h2]

theorem claim_C3_witness :
    ((wCache 5 [7] [{ key := 7, value := 70, container := 1 }]).Get 7).1 = some 70 ∧
    (7 ∉ (wCache 5 [] []).index →
      (wCache 5 [7] [{ key := 7, value := 70, container := 1 }]).GetKeyFrequency 7 = some 1 ∧
      ((wCache 5 [7] [{ key := 7, value := 70, container := 1 }]).Get 7).2.GetKeyFrequency 7
        = some 2) :=
  claim_C3 (wCache 5 [] []) _ 7 70 (Reach.new [] _ rfl) rfl

/-- C5: after a first insertion (frequency 1), every further access to the
key — a `get` or a `put` of a new value — raises its frequency by exactly
one, so after `1 + (N-1)` total accesses the frequency is `N`; along any
prefix of the accesses the frequency is `1 + n`, so it never decreases
while the key stays cached (and such accesses never evict it). -/
theorem claim_C5 (c c' : Cache K V) (k : K) (v : V)
    (hreach : Reach c) (hk : k ∉ c.index) (hp : c.Put k v = some c') (l : List (Acc V)) :
    c'.GetKeyFrequency k = some 1 ∧
    (applyAccs k c' l).GetKeyFrequency k = some (1 + l.length) ∧
    (∀ n, n ≤ l.length →
      (applyAccs k c' (l.take n)).GetKeyFrequency k = some (1 + n)) := by
  have h := reach_inv hreach
  obtain ⟨hinv', hk', hfe⟩ := Put_fresh_found h hk hp
  have hf1 : c'.GetKeyFrequency k = some 1 := by
    rw [Cache.GetKeyFrequency, if_pos hk', hfe, Option.map_some']
  refine ⟨hf1, (applyAccs_spec hinv' hf1 l).2, ?_⟩
  intro n hn
  have htake := (applyAccs_spec hinv' hf1 (l.take n)).2
  rw [List.length_take, Nat.min_eq_left hn] at htake
  exact htake

theorem claim_C5_witness :
    (wCache 5 [7] [{ key := 7, value := 70, container := 1 }]).GetKeyFrequency 7 = some 1 ∧
    (applyAccs 7 (wCache 5 [7] [{ key := 7, value := 70, container := 1 }])
        [Acc.g, Acc.p 9]).GetKeyFrequency 7 = some (1 + 2) ∧
    (∀ n, n ≤ ([Acc.g, Acc.p 9] : List (Acc Nat)).length →
      (applyAccs 7 (wCache 5 [7] [{ key := 7, value := 70, container := 1 }])
        (([Acc.g, Acc.p 9] : List (Acc Nat)).take n)).GetKeyFrequency 7 = some (1 + n)) :=
  claim_C5 (wCache 5 [] []) _ 7 70 (Reach.new [] _ rfl) (by simp [wCache]) rfl
    [Acc.g, Acc.p 9]

/-- C10: `Put` of an already-cached key never evicts and leaves the size
and the key set unchanged, even at full capacity: it only overwrites the
value and bumps the key's frequency by one. -/
theorem claim_C10 (c : Cache K V) (k : K) (v : V) (hreach : Reach c) (hk : k ∈ c.index) :
    ∃ c', c.Put k v = some c' ∧ c'.Size = c.Size ∧ c'.index = c.index ∧
      (∀ k', k' ∈ c'.index ↔ k' ∈ c.index) ∧
      (seqKeys c'.sequence).Perm (seqKeys c.sequence) ∧
      (c'.Get k).1 = some v ∧
      c'.GetKeyFrequency k = (c.GetKeyFrequency k).map (· + 1) := by
  have h := reach_inv hreach
  obtain ⟨c', hp, hinv', hidx', -, hperm, e, he, hfe'⟩ := Put_existing v h hk
  have hk' : k ∈ c'.index := by rw [hidx']; exact hk
  refine ⟨c', hp, ?_, hidx', ?_, hperm, ?_, ?_⟩
  · rw [Cache.Size, Cache.Size, hidx']
  · intro k'
    rw [hidx']
  · obtain ⟨e2, he2, hval, -⟩ := Get_spec hinv' hk'
    rw [hfe'] at he2
    injection he2 with h2
    rw [hval, ← h2]
  · rw [Cache.GetKeyFrequency, Cache.GetKeyFrequency, if_pos hk', if_pos hk, he, hfe',
      Option.map_some', Option.map_some', Option.map_some']

theorem claim_C10_witness :
    ∃ c', (wCache 5 [7] [{ key := 7, value := 70, container := 1 }]).Put 7 99 = some c' ∧
      c'.Size = (wCache 5 [7] [{ key := 7, value := 70, container := 1 }]).Size ∧
      c'.index = (wCache 5 [7] [{ key := 7, value := 70, container := 1 }]).index ∧
      (∀ k', k' ∈ c'.index
        ↔ k' ∈ (wCache 5 [7] [{ key := 7, value := 70, container := 1 }]).index) ∧
      (seqKeys c'.sequence).Perm
        (seqKeys (wCache 5 [7] [{ key := 7, value := 70, container := 1 }]).sequence) ∧
      (c'.Get 7).1 = some 99 ∧
      c'.GetKeyFrequency 7
        = ((wCache 5 [7] [{ key := 7, value := 70, container := 1 }]).GetKeyFrequency
            7).map (· + 1) :=
  claim_C10 (wCache 5 [7] [{ key := 7, value := 70, container := 1 }]) 7 99
    (Reach.put (wCache 5 [] []) _ 7 70 (Reach.new [] _ rfl) rfl) (by simp [wCache])

/-- C1: on a full cache (capacity ≥ 1), `Put` of an absent key succeeds and
evicts exactly one key: the victim was cached, is gone afterwards, the new
key is cached, the size is unchanged, and the victim is the head (oldest)
entry of a non-empty bucket of minimal frequency — LFU with oldest-first
tie-break.  In particular inserting `C+1` distinct keys into a fresh cache
of capacity `C` with no intervening gets evicts exactly the first-inserted
key, and (capacity 2, `put 1`, `put 2`, `get 1`, `put 3`) evicts key 2,
respecting frequency before recency. -/
theorem claim_C1 (c : Cache K V) (k : K) (v : V) (hreach : Reach c) (hk : k ∉ c.index)
    (hcap : 1 ≤ c.Capacity) (hfullsz : (c.Size : Int) = c.Capacity) :
    (∃ c' vk, c.Put k v = some c' ∧
      vk ∈ c.index ∧ vk ∉ c'.index ∧ k ∈ c'.index ∧ c'.Size = c.Size ∧
      (c'.index).Perm (k :: c.index.erase vk) ∧
      (∃ b ∈ c.sequence, b.entries ≠ [] ∧ b.entries.head?.map Entry.key = some vk ∧
        ∀ b' ∈ c.sequence, b'.entries ≠ [] → b.freq ≤ b'.freq)) ∧
    (∀ C : Nat, 1 ≤ C →
      ∃ cfin : Cache Nat Nat,
        putList { index := [], sequence := [{ freq := 1, entries := [] }],
                  capacity := (C : Int) } (List.range (C + 1)) = some cfin ∧
        (0 : Nat) ∉ cfin.index ∧ (∀ i : Nat, 1 ≤ i → i ≤ C → i ∈ cfin.index)) ∧
    (∃ cfr : Cache Nat Nat,
      ((New Nat Nat [2]).bind fun c0 => (c0.Put 1 10).bind fun c1 =>
        (c1.Put 2 20).bind fun c2 => ((c2.Get 1).2.Put 3 30)) = some cfr ∧
      (2 : Nat) ∉ cfr.index ∧ (1 : Nat) ∈ cfr.index ∧ (3 : Nat) ∈ cfr.index ∧
      cfr.GetKeyFrequency 1 = some 2 ∧ cfr.GetKeyFrequency 3 = some 1) := by
  have h := reach_inv hreach
  refine ⟨?_, ?_, ?_⟩
  · have hfull : (c.Size : Int) + 1 > c.Capacity := by
      rw [← hfullsz]
      omega
    have hsz1 : 1 ≤ c.index.length := by
      rw [Cache.Capacity] at hcap
      have h2 := hfullsz
      rw [Cache.Size, Cache.Capacity] at h2
      omega
    have hne : seqKeys c.sequence ≠ [] := by
      intro hempty
      have hlen := h.indexPerm.length_eq
      rw [hempty] at hlen
      simp only [List.length_nil] at hlen
      omega
    cases hev : evictFirst c.sequence with
    | none => exact absurd ((evictFirst_none_iff _).1 hev) hne
    | some p =>
      obtain ⟨c', hp, hinv', hidx', -, hvk, hsz, -, -, -⟩ :=
        Put_fresh_full v h hk hfull p.1 p.2 (by rw [hev])
      have hnd : c.index.Nodup := h.indexPerm.nodup_iff.2 h.nodupKeys
      refine ⟨c', p.1, hp, hvk, ?_, ?_, hsz, ?_, ?_⟩
      · rw [hidx']
        intro hmem
        rcases List.mem_append.1 hmem with hmem | hmem
        · exact absurd rfl ((hnd.mem_erase_iff.1 hmem).1)
        · rw [List.mem_singleton.1 hmem] at hvk
          exact hk hvk
      · rw [hidx']
        exact List.mem_append_right _ (List.mem_singleton.2 rfl)
      · rw [hidx']
        exact List.perm_append_singleton _ _
      · exact evictFirst_victim ((List.chain'_iff_pairwise).1 h.sorted) (by rw [hev])
  · intro C hC
    obtain ⟨cfin, hrun, hidx, -⟩ := putList_overflow C hC
    refine ⟨cfin, hrun, ?_, ?_⟩
    · rw [hidx]
      simp
    · intro i h1 h2
      rw [hidx]
      exact List.mem_map.2 ⟨i - 1, List.mem_range.2 (by omega), by omega⟩
  · refine ⟨_, rfl, ?_, ?_, ?_, ?_, ?_⟩ <;> decide

theorem claim_C1_witness :
    ((8 : Nat) ∉ (wCache 1 [7] [{ key := 7, value := 70, container := 1 }]).index) ∧
    (1 ≤ (wCache 1 [7] [{ key := 7, value := 70, container := 1 }]).Capacity) ∧
    (((wCache 1 [7] [{ key := 7, value := 70, container := 1 }]).Size : Int)
      = (wCache 1 [7] [{ key := 7, value := 70, container := 1 }]).Capacity) ∧
    ((∃ c' vk, (wCache 1 [7] [{ key := 7, value := 70, container := 1 }]).Put 8 80 = some c' ∧
      vk ∈ (wCache 1 [7] [{ key := 7, value := 70, container := 1 }]).index ∧
      vk ∉ c'.index ∧ (8 : Nat) ∈ c'.index ∧
      c'.Size = (wCache 1 [7] [{ key := 7, value := 70, container := 1 }]).Size ∧
      (c'.index).Perm
        (8 :: (wCache 1 [7] [{ key := 7, value := 70, container := 1 }]).index.erase vk) ∧
      (∃ b ∈ (wCache 1 [7] [{ key := 7, value := 70, container := 1 }]).sequence,
        b.entries ≠ [] ∧ b.entries.head?.map Entry.key = some vk ∧
        ∀ b' ∈ (wCache 1 [7] [{ key := 7, value := 70, container := 1 }]).sequence,
          b'.entries ≠ [] → b.freq ≤ b'.freq)) ∧
    (∀ C : Nat, 1 ≤ C →
      ∃ cfin : Cache Nat Nat,
        putList { index := [], sequence := [{ freq := 1, entries := [] }],
                  capacity := (C : Int) } (List.range (C + 1)) = some cfin ∧
        (0 : Nat) ∉ cfin.index ∧ (∀ i : Nat, 1 ≤ i → i ≤ C → i ∈ cfin.index)) ∧
    (∃ cfr : Cache Nat Nat,
      ((New Nat Nat [2]).bind fun c0 => (c0.Put 1 10).bind fun c1 =>
        (c1.Put 2 20).bind fun c2 => ((c2.Get 1).2.Put 3 30)) = some cfr ∧
      (2 : Nat) ∉ cfr.index ∧ (1 : Nat) ∈ cfr.index ∧ (3 : Nat) ∈ cfr.index ∧
      cfr.GetKeyFrequency 1 = some 2 ∧ cfr.GetKeyFrequency 3 = some 1)) :=
  ⟨by simp [wCache], by decide, by decide,
    claim_C1 (wCache 1 [7] [{ key := 7, value := 70, container := 1 }]) 8 80
      (Reach.put (wCache 1 [] []) _ 7 70 (Reach.new [1] _ rfl) rfl)
      (by simp [wCache]) (by decide) (by decide)⟩

/-- C2: `All` enumerates exactly the currently cached pairs — its keys are
a permutation of the index (each exactly once) and each pair carries the
stored value — in descending frequency order (the annotated traversal
`allKF` reports each key's true frequency and its frequency column is
non-increasing, most recently touched first within a bucket by
construction of the traversal).  The early-stopping iterator `AllWhile`
yields a prefix of `All` and returns no cache, so consuming part of the
sequence mutates nothing, and a non-stopping consumer gets the whole
sequence.  The spec's concrete scenario yields `c, b, a` exactly. -/
theorem claim_C2 (c : Cache K V) (h : Reach c) :
    ((c.All).map Prod.fst).Perm c.index ∧
    (c.All).length = c.Size ∧
    ((c.All).map Prod.fst).Nodup ∧
    (∀ p ∈ c.All, (findEntry p.1 c.sequence).map Entry.value = some p.2) ∧
    (allKF c).map Prod.fst = (c.All).map Prod.fst ∧
    (∀ p ∈ allKF c, c.GetKeyFrequency p.1 = some p.2) ∧
    List.Pairwise (· ≥ ·) ((allKF c).map Prod.snd) ∧
    (∀ yield : K → V → Bool, ∃ n, c.AllWhile yield = (c.All).take n) ∧
    c.AllWhile (fun _ _ => true) = c.All ∧
    (∃ cx : Cache Nat Nat,
      ((New Nat Nat [3]).bind fun c0 => (c0.Put 1 11).bind fun c1 =>
        (c1.Put 2 22).bind fun c2 => (c2.Put 3 33).map fun c3 =>
          (((c3.Get 2).2.Get 3).2.Get 3).2) = some cx ∧
      cx.All = [(3, 33), (2, 22), (1, 11)]) := by
  have hi := reach_inv h
  have hperm : ((c.All).map Prod.fst).Perm c.index :=
    (All_fst_perm_seqKeys c).trans hi.indexPerm.symm
  refine ⟨hperm, ?_, ?_, fun p hp => All_value hi hp,
    (allKF_map_fst c).trans (All_map_fst c).symm,
    fun p hp => allKF_freq hi hp, allKF_snd_pairwise hi, AllWhile_prefix c,
    AllWhile_true c, ?_⟩
  · rw [Cache.Size, ← hperm.length_eq, List.length_map]
  · exact hperm.nodup_iff.2 (hi.indexPerm.nodup_iff.2 hi.nodupKeys)
  · refine ⟨_, rfl, ?_⟩
    decide

theorem claim_C2_witness :
    (((wCache 5 [] []).All).map Prod.fst).Perm (wCache 5 [] []).index ∧
    ((wCache 5 [] []).All).length = (wCache 5 [] []).Size ∧
    (((wCache 5 [] []).All).map Prod.fst).Nodup ∧
    (∀ p ∈ (wCache 5 [] []).All,
      (findEntry p.1 (wCache 5 [] []).sequence).map Entry.value = some p.2) ∧
    (allKF (wCache 5 [] [])).map Prod.fst = ((wCache 5 [] []).All).map Prod.fst ∧
    (∀ p ∈ allKF (wCache 5 [] []), (wCache 5 [] []).GetKeyFrequency p.1 = some p.2) ∧
    List.Pairwise (· ≥ ·) ((allKF (wCache 5 [] [])).map Prod.snd) ∧
    (∀ yield : Nat → Nat → Bool, ∃ n,
      (wCache 5 [] []).AllWhile yield = ((wCache 5 [] []).All).take n) ∧
    (wCache 5 [] []).AllWhile (fun _ _ => true) = (wCache 5 [] []).All ∧
    (∃ cx : Cache Nat Nat,
      ((New Nat Nat [3]).bind fun c0 => (c0.Put 1 11).bind fun c1 =>
        (c1.Put 2 22).bind fun c2 => (c2.Put 3 33).map fun c3 =>
          (((c3.Get 2).2.Get 3).2.Get 3).2) = some cx ∧
      cx.All = [(3, 33), (2, 22), (1, 11)]) :=
  claim_C2 _ (Reach.new [] _ rfl)

end LFU
